import Mathlib

/-!
Verification development for the bf-rs repository: a compiler/interpreter
for the eight-command tape language.  The Rust sources under src/ are
shallowly embedded below: the IR (src/parser.rs, enum Expr), its
predicates, the reference interpreter (src/interpreter.rs), the two
optimization passes and the pass driver (src/optimize.rs), the lexer
(src/lexer.rs), the recursive-descent token consumer (src/parser.rs),
and the legacy flat interpreter (src/v1.rs).

Machine integers: cells are u8, modelled as Nat with explicit mod 256
arithmetic mirroring overflowing_add / overflowing_sub; pointers and
counts are usize, modelled as Nat.  Interpreter::run declares the error
type RuntimeError but never constructs it: no Err value is created
anywhere in src/interpreter.rs, so run's only failure is the pointer
underflow in ShiftLeft (current_cell_index -= num, a raw usize
subtraction).  That underflow panics in a debug build (a release build
would wrap the pointer to a huge index); it is modelled here as
RunRes.panicked, a result that propagates to every caller and is caught
by nothing -- in particular not by the dead Err match arm in
src/optimize.rs.  Unbounded while-loops are modelled with an explicit
fuel parameter; fuel exhaustion is a distinct result, never identified
with the panic.
-/

namespace BfRs

/-- IR node, translated from enum Expr in src/parser.rs.  Strings carried
by PrintString are modelled as their byte sequences. -/
inductive Expr where
  | block (exprs : List Expr)
  | increment (num : Nat)
  | decrement (num : Nat)
  | printChar
  | readChar
  | shiftLeft (num : Nat)
  | shiftRight (num : Nat)
  | loop (expr : Expr)
  | assign (index : Nat) (value : Nat)
  | assignCurrent (value : Nat)
  | printString (value : List Nat)
  | setCellPointer (value : Nat)
  | readCharForget
  deriving Repr

/-- Structural equality on Expr (Rust derives PartialEq on Expr; the
optimizer's fixed-point test uses it). -/
def Expr.beq : Expr → Expr → Bool
  | .block l1, .block l2 => goL l1 l2
  | .increment a, .increment b => a == b
  | .decrement a, .decrement b => a == b
  | .printChar, .printChar => true
  | .readChar, .readChar => true
  | .shiftLeft a, .shiftLeft b => a == b
  | .shiftRight a, .shiftRight b => a == b
  | .loop a, .loop b => Expr.beq a b
  | .assign i1 v1, .assign i2 v2 => i1 == i2 && v1 == v2
  | .assignCurrent a, .assignCurrent b => a == b
  | .printString a, .printString b => a == b
  | .setCellPointer a, .setCellPointer b => a == b
  | .readCharForget, .readCharForget => true
  | _, _ => false
where goL : List Expr → List Expr → Bool
  | [], [] => true
  | a :: x, b :: y => Expr.beq a b && goL x y
  | _, _ => false

mutual

theorem Expr.beq_iff : (a b : Expr) → (Expr.beq a b = true ↔ a = b)
  | .block l1, b => by
    cases b <;> simp [Expr.beq, Expr.beq_iff_list l1]
  | .loop a, b => by
    cases b <;> simp [Expr.beq, Expr.beq_iff a]
  | .increment _, b => by cases b <;> simp [Expr.beq]
  | .decrement _, b => by cases b <;> simp [Expr.beq]
  | .printChar, b => by cases b <;> simp [Expr.beq]
  | .readChar, b => by cases b <;> simp [Expr.beq]
  | .shiftLeft _, b => by cases b <;> simp [Expr.beq]
  | .shiftRight _, b => by cases b <;> simp [Expr.beq]
  | .assign _ _, b => by cases b <;> simp [Expr.beq]
  | .assignCurrent _, b => by cases b <;> simp [Expr.beq]
  | .printString _, b => by cases b <;> simp [Expr.beq]
  | .setCellPointer _, b => by cases b <;> simp [Expr.beq]
  | .readCharForget, b => by cases b <;> simp [Expr.beq]

theorem Expr.beq_iff_list : (x y : List Expr) → (Expr.beq.goL x y = true ↔ x = y)
  | [], [] => by simp [Expr.beq.goL]
  | a :: x, b :: y => by
    simp only [Expr.beq.goL, Bool.and_eq_true, Expr.beq_iff a b,
      Expr.beq_iff_list x y, List.cons.injEq]
  | [], _ :: _ => by simp [Expr.beq.goL]
  | _ :: _, [] => by simp [Expr.beq.goL]

end

instance Expr.instDecEq : DecidableEq Expr := fun a b =>
  decidable_of_iff (Expr.beq a b = true) (Expr.beq_iff a b)

/-- Expr::contains_read from src/parser.rs. -/
def Expr.contains_read : Expr → Bool
  | .readChar => true
  | .readCharForget => true
  | .block exprs => goL exprs
  | .loop e => e.contains_read
  | _ => false
where goL : List Expr → Bool
  | [] => false
  | e :: r => e.contains_read || goL r

/-- Expr::uses_memory from src/parser.rs. -/
def Expr.uses_memory : Expr → Bool
  | .block exprs => goL exprs
  | .loop e => e.uses_memory
  | .printString _ => false
  | .readCharForget => false
  | _ => true
where goL : List Expr → Bool
  | [] => false
  | e :: r => e.uses_memory || goL r

/-- Expr::is_block from src/parser.rs. -/
def Expr.is_block : Expr → Bool
  | .block _ => true
  | _ => false

/-- Expr::is_loop from src/parser.rs. -/
def Expr.is_loop : Expr → Bool
  | .loop _ => true
  | _ => false

/-! ## Interpreter (src/interpreter.rs)

The interpreter is polymorphic over a Handler capability, mirroring
trait Handler { read_char, write_char, mem_read }.  A handler is a state
type H together with the three operations. -/

/-- The Handler trait of src/interpreter.rs, as a record of operations
over a handler state H. -/
structure Handler (H : Type) where
  read_char : H → Nat × H
  write_char : Nat → H → H
  mem_read : Nat → H → H

/-- Interpreter state: cells, current_cell_index and the owned handler,
as in struct Interpreter of src/interpreter.rs. -/
structure Interp (H : Type) where
  cells : List Nat
  current_cell_index : Nat
  handler : H
  deriving Repr, DecidableEq

/-- Result of a run: normal completion, the pointer-underflow panic of
a debug build, or fuel exhaustion (the Rust while-loop has no fuel;
nofuel only marks that the chosen bound was too small and is never
identified with the panic).  run's declared error type RuntimeError is
never constructed by the code, so no error variant appears here: the
panic is not a Result error and no caller can catch it. -/
inductive RunRes (H : Type) where
  | ok (st : Interp H)
  | panicked
  | nofuel
  deriving Repr, DecidableEq

/-- Interpreter::cell: grow the tape with zero fill so that it has
length at least index + 1 (Vec::resize in src/interpreter.rs). -/
def extendCells (index : Nat) (cells : List Nat) : List Nat :=
  if index < cells.length then cells
  else cells ++ List.replicate (index + 1 - cells.length) 0

/-- Read tape cell at an index, growing the tape first (the Rust cell()
accessor resizes even for reads). -/
def cellRead (index : Nat) (cells : List Nat) : Nat × List Nat :=
  let c := extendCells index cells
  (c.getD index 0, c)

/-- Write tape cell at an index, growing the tape first. -/
def cellWrite (index : Nat) (v : Nat) (cells : List Nat) : List Nat :=
  (extendCells index cells).set index v

/-- u8 wrapping add of a usize count: overflowing_add(num as u8). -/
def incByte (v num : Nat) : Nat := (v + num % 256) % 256

/-- u8 wrapping sub of a usize count: overflowing_sub(num as u8). -/
def decByte (v num : Nat) : Nat := (v + (256 - num % 256)) % 256

/-- One Increment step: current cell += num (mod 256). -/
def stepIncrement {H : Type} (num : Nat) (st : Interp H) : Interp H :=
  let p := cellRead st.current_cell_index st.cells
  { st with cells := cellWrite st.current_cell_index (incByte p.1 num) p.2 }

/-- One Decrement step: current cell -= num (mod 256). -/
def stepDecrement {H : Type} (num : Nat) (st : Interp H) : Interp H :=
  let p := cellRead st.current_cell_index st.cells
  { st with cells := cellWrite st.current_cell_index (decByte p.1 num) p.2 }

/-- Notify the handler that the current cell is about to be observed. -/
def stepMemRead {H : Type} (hd : Handler H) (st : Interp H) : Interp H :=
  { st with handler := hd.mem_read st.current_cell_index st.handler }

/-- PrintChar: mem_read, then read the current cell, then write_char. -/
def stepPrintChar {H : Type} (hd : Handler H) (st : Interp H) : Interp H :=
  let st1 := stepMemRead hd st
  let p := cellRead st1.current_cell_index st1.cells
  { st1 with cells := p.2, handler := hd.write_char p.1 st1.handler }

/-- ReadChar: current cell := handler.read_char(). -/
def stepReadChar {H : Type} (hd : Handler H) (st : Interp H) : Interp H :=
  let p := hd.read_char st.handler
  { st with
    cells := cellWrite st.current_cell_index p.1 st.cells
    handler := p.2 }

/-- PrintString: write_char for each byte of the string in order. -/
def stepPrintString {H : Type} (hd : Handler H) (value : List Nat)
    (st : Interp H) : Interp H :=
  { st with handler := value.foldl (fun h b => hd.write_char b h) st.handler }

/-- ReadCharForget: call read_char and discard the byte. -/
def stepReadCharForget {H : Type} (hd : Handler H) (st : Interp H) : Interp H :=
  { st with handler := (hd.read_char st.handler).2 }

/-- Sequential execution of a block's children (the for-loop in the
Block arm of Interpreter::run), parametrized by the runner for one
child. -/
def seqRun {H : Type} (step : Expr → Interp H → RunRes H) :
    List Expr → Interp H → RunRes H
  | [], st => .ok st
  | e :: r, st =>
    match step e st with
    | .ok st' => seqRun step r st'
    | x => x

/-- The while-loop of the Loop arm of Interpreter::run: re-read the
current cell (which grows the tape) and run the body while it is
nonzero.  mem_read is NOT called here; Interpreter::run calls it once
before entering the loop.  The Nat argument bounds the number of
iterations. -/
def loopWhile {H : Type} (body : Interp H → RunRes H) :
    Nat → Interp H → RunRes H
  | 0, st =>
    let p := cellRead st.current_cell_index st.cells
    if p.1 = 0 then .ok { st with cells := p.2 } else .nofuel
  | g + 1, st =>
    let p := cellRead st.current_cell_index st.cells
    if p.1 = 0 then .ok { st with cells := p.2 }
    else
      match body { st with cells := p.2 } with
      | .ok st2 => loopWhile body g st2
      | x => x

/-- Interpreter::run from src/interpreter.rs.  Fuel decreases when
descending into a node and bounds loop iterations; a run that returns
ok or panicked is the Rust (debug-build) behavior, nofuel says only
that the fuel bound was hit.  ShiftLeft with num > current_cell_index
is the usize-underflow panic (see the header comment); run itself never
produces an error value. -/
def run {H : Type} (hd : Handler H) : Nat → Expr → Interp H → RunRes H
  | 0, _, _ => .nofuel
  | f + 1, e, st =>
    match e with
    | .block l => seqRun (run hd f) l st
    | .increment n => .ok (stepIncrement n st)
    | .decrement n => .ok (stepDecrement n st)
    | .printChar => .ok (stepPrintChar hd st)
    | .readChar => .ok (stepReadChar hd st)
    | .shiftLeft n =>
      if n ≤ st.current_cell_index then
        .ok { st with current_cell_index := st.current_cell_index - n }
      else .panicked
    | .shiftRight n =>
      .ok { st with current_cell_index := st.current_cell_index + n }
    | .loop b => loopWhile (run hd f b) f (stepMemRead hd st)
    | .assign i v => .ok { st with cells := cellWrite i v st.cells }
    | .assignCurrent v =>
      .ok { st with cells := cellWrite st.current_cell_index v st.cells }
    | .printString v => .ok (stepPrintString hd v st)
    | .setCellPointer v => .ok { st with current_cell_index := v }
    | .readCharForget => .ok (stepReadCharForget hd st)

/-! ### The stream handler

The production handler binds read_char to an input byte stream (0 once
exhausted) and records the interpreter's externally visible actions in
order: every write_char byte, every read_char call, every mem_read
notification. -/

/-- One externally visible handler event. -/
inductive Ev where
  | memRead (index : Nat)
  | write (b : Nat)
  | read
  deriving DecidableEq, Repr

/-- Stream handler state: remaining input bytes and the event log. -/
structure IOSt where
  inp : List Nat
  events : List Ev
  deriving DecidableEq, Repr

/-- The stream handler: next input byte or 0 at end of stream. -/
def ioHandler : Handler IOSt where
  read_char h := (h.inp.headD 0, { inp := h.inp.tail, events := h.events ++ [.read] })
  write_char b h := { h with events := h.events ++ [.write b] }
  mem_read i h := { h with events := h.events ++ [.memRead i] }

/-- Fresh interpreter over a given input stream (Interpreter::new). -/
def initInterp (inp : List Nat) : Interp IOSt :=
  { cells := [], current_cell_index := 0, handler := { inp := inp, events := [] } }

/-- The output byte stream of a run: the write_char bytes in order. -/
def outOf (st : Interp IOSt) : List Nat :=
  st.handler.events.filterMap (fun ev =>
    match ev with
    | .write b => some b
    | _ => none)

/-- The number of input bytes consumed: the number of read_char calls. -/
def readsOf (st : Interp IOSt) : Nat :=
  (st.handler.events.filter (fun ev => ev matches .read)).length

/-- The number of mem_read notifications issued. -/
def memReadsOf (st : Interp IOSt) : Nat :=
  (st.handler.events.filter (fun ev => ev matches .memRead _)).length

/-- Output stream of a completed run, none on fault or fuel-out. -/
def resOut : RunRes IOSt → Option (List Nat)
  | .ok st => some (outOf st)
  | _ => none

/-- Input bytes consumed by a completed run, none on fault or fuel-out. -/
def resReads : RunRes IOSt → Option Nat
  | .ok st => some (readsOf st)
  | _ => none

/-- mem_read notifications of a completed run, none on fault or fuel-out. -/
def resMemReads : RunRes IOSt → Option Nat
  | .ok st => some (memReadsOf st)
  | _ => none

/-! ## Optimization passes (src/optimize.rs) -/

/-- ZeroLoopOptimizer::optimize from src/optimize.rs: rewrite a Loop
whose body is a Block equal to the one-element slice Decrement 1 into
AssignCurrent 0; recurse into Block children; leave every other node
(including non-matching Loop bodies) untouched. -/
def zeroLoopOptimize : Expr → Expr
  | .block exprs => .block (goL exprs)
  | .loop e =>
    match e with
    | .block [.decrement 1] => .assignCurrent 0
    | _ => .loop e
  | e => e
where goL : List Expr → List Expr
  | [] => []
  | e :: r => zeroLoopOptimize e :: goL r

/-- SpecExecHandler state: the ordered output segments
(Vec of Strings, modelled as byte lists). -/
structure SpecSt where
  out : List (List Nat)
  deriving Repr, DecidableEq

/-- SpecExecHandler::print: push a fresh segment if none exists, then
append the character to the last segment. -/
def appendLast (c : Nat) : List (List Nat) → List (List Nat)
  | [] => [[c]]
  | [s] => [s ++ [c]]
  | s :: r => s :: appendLast c r

/-- The speculative-execution handler: write_char buffers into the last
segment; read_char and mem_read keep the trait defaults (return 0 and
do nothing, respectively). -/
def specHandler : Handler SpecSt where
  read_char h := (0, h)
  write_char b h := { out := appendLast b h.out }
  mem_read _ h := h

/-- Fresh interpreter with a SpecExecHandler, as built at the start of
SpecExecOptimizer::optimize. -/
def initSpecVm : Interp SpecSt :=
  { cells := [], current_cell_index := 0, handler := { out := [] } }

/-- Push an empty output segment (vm.handler.out.push(String::new())). -/
def pushSeg (vm : Interp SpecSt) : Interp SpecSt :=
  { vm with handler := { out := vm.handler.out ++ [[]] } }

/-- Result of the prefix walk inside SpecExecOptimizer::optimize:
either the walk stopped at a split point (carrying the vm and the
not-yet-walked suffix, i.e. exprs[i..]), or it finished all children,
or a child's execution panicked (pointer underflow; the panic unwinds
out of the whole pass -- the for-loop's Err match arm is dead code,
since run never constructs an error value), or the modelling fuel ran
out. -/
inductive SpecWalk where
  | stopped (vm : Interp SpecSt) (rest : List Expr)
  | finished (vm : Interp SpecSt)
  | panicked
  | nofuel
  deriving Repr, DecidableEq

/-- The left-to-right prefix walk of SpecExecOptimizer::optimize over
the top-level Block's children.  For a child that contains a read:
if the next sibling is AssignCurrent (disposable read), or every later
sibling satisfies !uses_memory (tail-only reads), push a fresh output
segment and execute the child; otherwise record the split point and
stop without executing it. -/
def specWalk (f : Nat) : List Expr → Interp SpecSt → SpecWalk
  | [], vm => .finished vm
  | e :: rest, vm =>
    let cont : Option (Interp SpecSt) :=
      if e.contains_read then
        match rest.head? with
        | some (.assignCurrent _) => some (pushSeg vm)
        | _ =>
          if rest.all (fun x => !x.uses_memory) then some (pushSeg vm)
          else none
      else some vm
    match cont with
    | none => .stopped vm (e :: rest)
    | some vm1 =>
      match run specHandler f e vm1 with
      | .ok vm2 => specWalk f rest vm2
      | .panicked => .panicked
      | .nofuel => .nofuel

/-- Result of one optimization pass (and of the whole Optimizer):
the rewritten tree, a panic, or modelling fuel exhaustion.  panicked
models a Rust panic escaping SpecExecOptimizer::optimize: either the
pointer-underflow panic raised while speculatively running a child
(RunRes.panicked), or the emission-time panic when the segment list is
empty (vm.handler.out.len() - 1 underflows and
vm.handler.out.last().unwrap() is called on None). -/
inductive SpecRes where
  | ok (e : Expr)
  | panicked
  | nofuel
  deriving Repr, DecidableEq

/-- PrintString plus ReadCharForget for each output segment, in order
(the take(len - 1) emission loops of SpecExecOptimizer::optimize). -/
def segPairs : List (List Nat) → List Expr
  | [] => []
  | s :: r => .printString s :: .readCharForget :: segPairs r

/-- Assign { index, value } for every cell of the speculative tape, in
index order. -/
def assignsOf (cells : List Nat) : List Expr :=
  cells.enum.map (fun p => .assign p.1 p.2)

/-- SpecExecOptimizer::optimize from src/optimize.rs.  Operates only on
a top-level Block (if-let); a panic during the walk propagates out of
the pass (nothing catches it: the Err arm that would return the tree
unchanged is dead, because run never produces an error value); with an
empty segment list at emission it panics too (see SpecRes.panicked). -/
def specExecOptimize (f : Nat) : Expr → SpecRes
  | .block exprs =>
    match specWalk f exprs initSpecVm with
    | .panicked => .panicked
    | .nofuel => .nofuel
    | .finished vm =>
      match vm.handler.out with
      | [] => .panicked
      | _ => .ok (.block (segPairs vm.handler.out.dropLast ++
          [.printString (vm.handler.out.getLastD [])]))
    | .stopped vm rest =>
      match vm.handler.out with
      | [] => .panicked
      | _ => .ok (.block (assignsOf vm.cells ++ segPairs vm.handler.out.dropLast ++
          [.printString (vm.handler.out.getLastD []),
           .setCellPointer vm.current_cell_index] ++ rest))
  | e => .ok e

/-- One cycle of the registered pass list, in registration order:
ZeroLoopOptimizer then SpecExecOptimizer (as in the library's tests and
pipeline). -/
def optPasses (f : Nat) (e : Expr) : SpecRes :=
  specExecOptimize f (zeroLoopOptimize e)

/-- The bounded fixed-point loop of Optimizer::optimize: up to the
given number of cycles, stopping early when a full cycle leaves the
tree unchanged (structural equality). -/
def optCycles (f : Nat) : Nat → Expr → Expr → SpecRes
  | 0, _, e => .ok e
  | n + 1, old, e =>
    match optPasses f e with
    | .ok e2 => if e2 = old then .ok e2 else optCycles f n e2 e2
    | r => r

/-- Optimizer::new plus Optimizer::optimize (limit = 3): wrap a
non-Block root in a singleton Block, then run the pass cycles. -/
def optimizerOptimize (f : Nat) (e : Expr) : SpecRes :=
  let e0 := if e.is_block then e else .block [e]
  optCycles f 3 e0 e0

/-! ## Lexer (src/lexer.rs) -/

/-- is_bf_char from src/lexer.rs: the eight command characters. -/
def is_bf_char (c : Char) : Bool :=
  c = '+' || c = '-' || c = '<' || c = '>' || c = '.' || c = ',' || c = '[' || c = ']'

/-- TokenData from src/lexer.rs (the Token wrapper struct adds nothing
and is omitted). -/
inductive TokenData where
  | shiftLeft (n : Nat)
  | shiftRight (n : Nat)
  | increment (n : Nat)
  | decrement (n : Nat)
  | startLoop
  | endLoop
  | read
  | print
  | other (s : List Char)
  deriving DecidableEq, Repr

/-- LexerError from src/lexer.rs (declared but never raised). -/
inductive LexerError where
  | mk
  deriving DecidableEq, Repr

/-- The scanning loop of Lexer::lex.  For each of + - > <, the run of
equal characters is consumed (count_char counts the current character
and every following equal one) and one counted token is emitted; the
four singleton commands emit singleton tokens; any other character
starts an Other token whose text is data[start..end] where end is the
byte index of the terminating command character, or, when the input
ends inside the run, the byte index of the run's last character -- so
the final character of the run is dropped at end of input.  The Nat
argument is fuel; every recursive call consumes at least one character,
so fuel = length of the input suffices. -/
def lexGo : Nat → List Char → List TokenData
  | _, [] => []
  | 0, _ :: _ => []
  | f + 1, c :: rest =>
    if c = '+' then
      .increment (1 + (rest.takeWhile (fun d => d = '+')).length) ::
        lexGo f (rest.dropWhile (fun d => d = '+'))
    else if c = '-' then
      .decrement (1 + (rest.takeWhile (fun d => d = '-')).length) ::
        lexGo f (rest.dropWhile (fun d => d = '-'))
    else if c = '>' then
      .shiftRight (1 + (rest.takeWhile (fun d => d = '>')).length) ::
        lexGo f (rest.dropWhile (fun d => d = '>'))
    else if c = '<' then
      .shiftLeft (1 + (rest.takeWhile (fun d => d = '<')).length) ::
        lexGo f (rest.dropWhile (fun d => d = '<'))
    else if c = '.' then .print :: lexGo f rest
    else if c = ',' then .read :: lexGo f rest
    else if c = ']' then .endLoop :: lexGo f rest
    else if c = '[' then .startLoop :: lexGo f rest
    else
      let w := rest.takeWhile (fun d => !is_bf_char d)
      match rest.dropWhile (fun d => !is_bf_char d) with
      | [] => [.other ((c :: w).dropLast)]
      | r :: rs => .other (c :: w) :: lexGo f (r :: rs)

/-- The token stream Lexer::lex leaves in self.tokens. -/
def lexTokens (src : List Char) : List TokenData :=
  lexGo (src.length + 1) src

/-- Lexer::lex: fills the token vector and returns Ok(()); no code path
constructs a LexerError. -/
def lex (src : List Char) : Except LexerError (List TokenData) :=
  .ok (lexTokens src)

/-! ## Recursive-descent token consumer (src/parser.rs, struct Parser) -/

/-- ParseError from src/parser.rs: an empty enum, uninhabited. -/
inductive ParseError where

/-- The while-loop of Parser::parse, threading the loop_count field.
Returns the parsed sibling list, the unconsumed token suffix and the
final loop_count.  StartLoop recurses (loop_count + 1) and wraps the
inner Block in a Loop; EndLoop with loop_count > 0 consumes the token,
decrements loop_count and breaks; EndLoop at loop_count = 0 is
consumed and ignored; Other tokens are skipped.  The Nat argument is
fuel; every recursive call consumes at least one token or is passed a
suffix no longer than its caller's, so fuel > number of tokens
suffices. -/
def parseGo : Nat → List TokenData → Nat → (List Expr × List TokenData × Nat)
  | 0, toks, lc => ([], toks, lc)
  | _ + 1, [], lc => ([], [], lc)
  | f + 1, t :: rest, lc =>
    match t with
    | .increment n =>
      match parseGo f rest lc with
      | (es, r, lc') => (.increment n :: es, r, lc')
    | .decrement n =>
      match parseGo f rest lc with
      | (es, r, lc') => (.decrement n :: es, r, lc')
    | .shiftLeft n =>
      match parseGo f rest lc with
      | (es, r, lc') => (.shiftLeft n :: es, r, lc')
    | .shiftRight n =>
      match parseGo f rest lc with
      | (es, r, lc') => (.shiftRight n :: es, r, lc')
    | .print =>
      match parseGo f rest lc with
      | (es, r, lc') => (.printChar :: es, r, lc')
    | .read =>
      match parseGo f rest lc with
      | (es, r, lc') => (.readChar :: es, r, lc')
    | .startLoop =>
      match parseGo f rest (lc + 1) with
      | (body, r, lc1) =>
        match parseGo f r lc1 with
        | (es, r2, lc2) => (.loop (.block body) :: es, r2, lc2)
    | .endLoop => if lc > 0 then ([], rest, lc - 1) else parseGo f rest lc
    | .other _ => parseGo f rest lc

/-- The Expr tree Parser::parse builds from a token stream. -/
def parseExpr (toks : List TokenData) : Expr :=
  .block (parseGo (toks.length + 1) toks 0).1

/-- Parser::parse: always Ok (ParseError is uninhabited; no code path
constructs one). -/
def parse (toks : List TokenData) : Except ParseError Expr :=
  .ok (parseExpr toks)

/-- The front end: lex then parse, the parsed IR of a source text. -/
def parsedIR (src : List Char) : Expr :=
  parseExpr (lexTokens src)

/-- The byte currently under the data pointer (0 beyond the tape). -/
def currentCell {H : Type} (st : Interp H) : Nat :=
  st.cells.getD st.current_cell_index 0

/-- Descend through Block children by child index.  These are exactly
the positions ZeroLoopOptimizer::optimize recurses through: the root
itself and, repeatedly, a child of a Block. -/
def getPath : Expr → List Nat → Option Expr
  | e, [] => some e
  | e, i :: p =>
    match e with
    | .block exprs =>
      match exprs.get? i with
      | some c => getPath c p
      | none => none
    | _ => none

/-- Does a node emit mem_read notifications when run?  Only the Loop
header and PrintChar call handler.mem_read in Interpreter::run. -/
def emitsMemRead : Expr → Bool
  | .loop _ => true
  | .printChar => true
  | .block l => goL l
  | _ => false
where goL : List Expr → Bool
  | [] => false
  | e :: r => emitsMemRead e || goL r

/-! ## Legacy flat interpreter (src/v1.rs) -/

/-- enum Instruction from src/v1.rs. -/
inductive Instruction where
  | shiftLeft
  | shiftRight
  | increment
  | decrement
  | startLoop
  | endLoop
  | read
  | print
  deriving DecidableEq, Repr

/-- Instruction::from_char from src/v1.rs. -/
def Instruction.from_char : Char → Option Instruction
  | '>' => some .shiftRight
  | '<' => some .shiftLeft
  | '+' => some .increment
  | '-' => some .decrement
  | '[' => some .startLoop
  | ']' => some .endLoop
  | ',' => some .read
  | '.' => some .print
  | _ => none

/-- Instruction::is_end_loop from src/v1.rs. -/
def Instruction.is_end_loop : Instruction → Bool
  | .endLoop => true
  | _ => false

/-- Instruction::is_start_loop from src/v1.rs. -/
def Instruction.is_start_loop : Instruction → Bool
  | .startLoop => true
  | _ => false

/-- State of v1::Interpreter::exec: tape, pointer, the input and output
streams behind input_func/output_func (modelled as byte lists, next
byte or 0 once exhausted), the local loop_stack and the instruction
index i. -/
structure V1 where
  mem : List Nat
  ptr : Nat
  inp : List Nat
  out : List Nat
  stack : List Nat
  i : Nat
  deriving DecidableEq, Repr

/-- One machine step outcome: the next state, or a fault (pointer
underflow on ShiftLeft, or one of the .expect() panics on malformed
bracket nesting). -/
inductive StepRes where
  | ok (s : V1)
  | fault
  deriving DecidableEq, Repr

/-- The matching-bracket search of the StartLoop arm: the position
closure over instructions[i..] with its found_start counter, returning
the relative index of the matching EndLoop. -/
def findEnd : List Instruction → Nat → Option Nat
  | [], _ => none
  | ins :: r, fs =>
    if 1 < fs ∧ ins.is_end_loop = true then (findEnd r (fs - 1)).map Nat.succ
    else if ins.is_start_loop = true then (findEnd r (fs + 1)).map Nat.succ
    else if fs = 1 ∧ ins.is_end_loop = true then some 0
    else (findEnd r fs).map Nat.succ

/-- One iteration of the while-loop of v1::Interpreter::exec; when i is
past the end the state is returned unchanged (the loop has exited).
v1's get()/get_mut() resize the tape exactly like the v2 interpreter
(cellRead / cellWrite).  Decrement uses u8 -= 1, which wraps with
overflow checks disabled; the wrap (decByte) is the intended byte
semantics that interpreter.rs makes explicit with overflowing_sub.
ShiftLeft at pointer 0 is the usize underflow fault. -/
def v1step (code : List Instruction) (s : V1) : StepRes :=
  match code.get? s.i with
  | none => .ok s
  | some ins =>
    match ins with
    | .shiftRight => .ok { s with ptr := s.ptr + 1, i := s.i + 1 }
    | .shiftLeft =>
      if s.ptr = 0 then .fault
      else .ok { s with ptr := s.ptr - 1, i := s.i + 1 }
    | .increment =>
      .ok { s with
        mem := cellWrite s.ptr (incByte (cellRead s.ptr s.mem).1 1) (cellRead s.ptr s.mem).2
        i := s.i + 1 }
    | .decrement =>
      .ok { s with
        mem := cellWrite s.ptr (decByte (cellRead s.ptr s.mem).1 1) (cellRead s.ptr s.mem).2
        i := s.i + 1 }
    | .startLoop =>
      if (cellRead s.ptr s.mem).1 = 0 then
        match findEnd (code.drop s.i) 0 with
        | none => .fault
        | some off =>
          .ok { s with mem := (cellRead s.ptr s.mem).2, i := s.i + off + 1 }
      else
        .ok { s with
          mem := (cellRead s.ptr s.mem).2
          stack := s.i :: s.stack
          i := s.i + 1 }
    | .endLoop =>
      if (cellRead s.ptr s.mem).1 ≠ 0 then
        match s.stack with
        | [] => .fault
        | j :: _ => .ok { s with mem := (cellRead s.ptr s.mem).2, i := j + 1 }
      else
        match s.stack with
        | [] => .fault
        | _ :: t =>
          .ok { s with mem := (cellRead s.ptr s.mem).2, stack := t, i := s.i + 1 }
    | .read =>
      .ok { s with
        mem := cellWrite s.ptr (s.inp.headD 0) s.mem
        inp := s.inp.tail
        i := s.i + 1 }
    | .print =>
      .ok { s with
        mem := (cellRead s.ptr s.mem).2
        out := s.out ++ [(cellRead s.ptr s.mem).1]
        i := s.i + 1 }

/-- k machine steps (states past the end of the code are fixpoints). -/
def stepN (code : List Instruction) : Nat → V1 → StepRes
  | 0, s => .ok s
  | k + 1, s =>
    match v1step code s with
    | .ok s' => stepN code k s'
    | .fault => .fault

/-- v1::Interpreter::exec: step while i < instructions.len().  The Nat
is fuel; none means the bound was hit. -/
def v1exec (code : List Instruction) : Nat → V1 → Option StepRes
  | 0, s => if s.i < code.length then none else some (.ok s)
  | f + 1, s =>
    if s.i < code.length then
      match v1step code s with
      | .ok s' => v1exec code f s'
      | .fault => some .fault
    else some (.ok s)

/-- Fresh v1 interpreter on a given input stream. -/
def v1init (inp : List Nat) : V1 :=
  { mem := [], ptr := 0, inp := inp, out := [], stack := [], i := 0 }

/-! ## Bridge between the IR and the v1 instruction list -/

/-- Is the tree in the source-faithful subset (the seven variants the
parser emits)?  The synthesized variants have no v1 counterpart. -/
def srcFaithful : Expr → Bool
  | .block l => goL l
  | .loop b => srcFaithful b
  | .increment _ => true
  | .decrement _ => true
  | .shiftLeft _ => true
  | .shiftRight _ => true
  | .printChar => true
  | .readChar => true
  | _ => false
where goL : List Expr → Bool
  | [] => true
  | e :: r => srcFaithful e && goL r

/-- Flatten a source-faithful tree back to the v1 instruction list:
counted nodes expand to runs, Loop to StartLoop body EndLoop.
(Synthesized variants map to [] and are excluded by srcFaithful.) -/
def flatten : Expr → List Instruction
  | .block l => goL l
  | .increment n => List.replicate n .increment
  | .decrement n => List.replicate n .decrement
  | .shiftLeft n => List.replicate n .shiftLeft
  | .shiftRight n => List.replicate n .shiftRight
  | .printChar => [.print]
  | .readChar => [.read]
  | .loop b => .startLoop :: flatten b ++ [.endLoop]
  | _ => []
where goL : List Expr → List Instruction
  | [] => []
  | e :: r => flatten e ++ goL r

/-- Flatten one token to instructions (counted tokens expand). -/
def tokFlat : TokenData → List Instruction
  | .increment n => List.replicate n .increment
  | .decrement n => List.replicate n .decrement
  | .shiftLeft n => List.replicate n .shiftLeft
  | .shiftRight n => List.replicate n .shiftRight
  | .print => [.print]
  | .read => [.read]
  | .startLoop => [.startLoop]
  | .endLoop => [.endLoop]
  | .other _ => []

/-- Flatten a token stream to instructions. -/
def toksFlat : List TokenData → List Instruction
  | [] => []
  | t :: r => tokFlat t ++ toksFlat r

/-- Bracket-depth scan: final depth of an instruction list starting
from depth d, none when the depth would go negative. -/
def cnt : List Instruction → Nat → Option Nat
  | [], d => some d
  | .startLoop :: r, d => cnt r (d + 1)
  | .endLoop :: r, d => if d = 0 then none else cnt r (d - 1)
  | _ :: r, d => cnt r d

/-- A source text has balanced brackets. -/
def balancedSrc (src : List Char) : Prop :=
  cnt (src.filterMap Instruction.from_char) 0 = some 0

instance (src : List Char) : Decidable (balancedSrc src) :=
  decidable_of_iff (cnt (src.filterMap Instruction.from_char) 0 = some 0) Iff.rfl

/-- Correspondence between a v2 interpreter state (with the stream
handler) and a v1 machine state: tapes agree cell-for-cell (and hold
bytes), pointers agree, the remaining inputs agree (and hold bytes),
and the v2 write_char log equals the v1 output. -/
def Rel (t : Interp IOSt) (s : V1) : Prop :=
  (∀ j, t.cells.getD j 0 = s.mem.getD j 0) ∧
  (∀ j, t.cells.getD j 0 < 256) ∧
  t.current_cell_index = s.ptr ∧
  t.handler.inp = s.inp ∧
  (∀ b ∈ s.inp, b < 256) ∧
  outOf t = s.out

/-! ## Basic tape lemmas -/

theorem getD_append_zeros (c : List Nat) (n : Nat) :
    ∀ j, (c ++ List.replicate n 0).getD j 0 = c.getD j 0 := by
  intro j
  induction c generalizing j with
  | nil =>
    simp only [List.nil_append, List.getD, List.getElem?_replicate]
    cases Nat.decLt j n with
    | isTrue h => simp [h]
    | isFalse h => simp [h]
  | cons a t ih =>
    cases j with
    | zero => rfl
    | succ j => simpa using ih j

theorem extendCells_getD (i : Nat) (c : List Nat) (j : Nat) :
    (extendCells i c).getD j 0 = c.getD j 0 := by
  unfold extendCells
  by_cases h : i < c.length
  · simp [h]
  · simp only [h, if_false]
    exact getD_append_zeros c _ j

theorem extendCells_length (i : Nat) (c : List Nat) :
    i < (extendCells i c).length := by
  unfold extendCells
  by_cases h : i < c.length
  · simp [h]
  · simp only [h, if_false, List.length_append, List.length_replicate]
    omega

theorem getD_set_self (l : List Nat) (i v : Nat) (h : i < l.length) :
    (l.set i v).getD i 0 = v := by
  induction l generalizing i with
  | nil => simp at h
  | cons a t ih =>
    cases i with
    | zero => rfl
    | succ i => exact ih i (by simpa using h)

theorem getD_set_ne (l : List Nat) (i j v : Nat) (h : i ≠ j) :
    (l.set i v).getD j 0 = l.getD j 0 := by
  induction l generalizing i j with
  | nil => rfl
  | cons a t ih =>
    cases i with
    | zero =>
      cases j with
      | zero => exact absurd rfl h
      | succ j => rfl
    | succ i =>
      cases j with
      | zero => rfl
      | succ j => exact ih i j (by omega)

theorem cellWrite_getD_self (i v : Nat) (c : List Nat) :
    (cellWrite i v c).getD i 0 = v :=
  getD_set_self _ i v (extendCells_length i c)

theorem cellWrite_getD_ne (i v : Nat) (c : List Nat) (j : Nat) (h : i ≠ j) :
    (cellWrite i v c).getD j 0 = c.getD j 0 := by
  unfold cellWrite
  rw [getD_set_ne _ _ _ _ h, extendCells_getD]

theorem cellRead_fst (i : Nat) (c : List Nat) :
    (cellRead i c).1 = c.getD i 0 := by
  unfold cellRead
  exact extendCells_getD i c i

theorem cellRead_snd_getD (i : Nat) (c : List Nat) (j : Nat) :
    ((cellRead i c).2).getD j 0 = c.getD j 0 := by
  unfold cellRead
  exact extendCells_getD i c j

/-! ## Claim theorems -/

/-- C8.  For every initial cell value v in [0,255] and every count
k >= 1 (any usize width, including k >= 256), the interpreter executes
Increment (num := k) by setting the current cell to (v + k) mod 256 and
Decrement (num := k) by setting it to (v - k) mod 256 (as integers),
leaving the pointer in place. -/
theorem C8_increment_decrement_wrap {H : Type} (hd : Handler H) (f k v : Nat)
    (st : Interp H) (hv : currentCell st = v) (hv' : v < 256) (hk : 1 ≤ k) :
    (∃ st', run hd (f + 1) (.increment k) st = .ok st' ∧
      st'.current_cell_index = st.current_cell_index ∧
      currentCell st' = (v + k) % 256) ∧
    (∃ st', run hd (f + 1) (.decrement k) st = .ok st' ∧
      st'.current_cell_index = st.current_cell_index ∧
      (currentCell st' : Int) = ((v : Int) - (k : Int)) % 256) := by
  constructor
  · refine ⟨_, rfl, rfl, ?_⟩
    show (stepIncrement k st).cells.getD (stepIncrement k st).current_cell_index 0 = _
    unfold stepIncrement
    simp only
    rw [cellWrite_getD_self]
    rw [cellRead_fst]
    have hv2 : st.cells.getD st.current_cell_index 0 = v := hv
    rw [hv2]
    unfold incByte
    omega
  · refine ⟨_, rfl, rfl, ?_⟩
    show ((stepDecrement k st).cells.getD (stepDecrement k st).current_cell_index 0 : Int) = _
    unfold stepDecrement
    simp only
    rw [cellWrite_getD_self]
    rw [cellRead_fst]
    have hv2 : st.cells.getD st.current_cell_index 0 = v := hv
    rw [hv2]
    unfold decByte
    omega

/-- Witness for C8 at v = 200, k = 300: the cell becomes
(200 + 300) mod 256 = 244, respectively (200 - 300) mod 256 = 156. -/
theorem C8_witness :
    (∃ st', run ioHandler 1 (.increment 300)
        { cells := [200], current_cell_index := 0, handler := { inp := [], events := [] } } =
        .ok st' ∧
      st'.current_cell_index = 0 ∧ currentCell st' = (200 + 300) % 256) ∧
    (∃ st', run ioHandler 1 (.decrement 300)
        { cells := [200], current_cell_index := 0, handler := { inp := [], events := [] } } =
        .ok st' ∧
      st'.current_cell_index = 0 ∧
      (currentCell st' : Int) = ((200 : Int) - (300 : Int)) % 256) :=
  C8_increment_decrement_wrap ioHandler 0 300 200
    { cells := [200], current_cell_index := 0, handler := { inp := [], events := [] } }
    (by decide) (by decide) (by decide)

/-! ## Zero-loop pass lemmas (C4) -/

theorem zeroLoop_goL_eq (l : List Expr) :
    zeroLoopOptimize.goL l = l.map zeroLoopOptimize := by
  induction l with
  | nil => rfl
  | cons e r ih => simp [zeroLoopOptimize.goL, ih]

theorem zeroLoop_path (pth : List Nat) : ∀ e : Expr,
    getPath e pth = some (.loop (.block [.decrement 1])) →
    getPath (zeroLoopOptimize e) pth = some (.assignCurrent 0) := by
  induction pth with
  | nil =>
    intro e h
    simp only [getPath, Option.some.injEq] at h
    subst h
    rfl
  | cons i p ih =>
    intro e h
    cases e with
    | block exprs =>
      simp only [getPath] at h
      cases hc : exprs.get? i with
      | none => rw [hc] at h; simp at h
      | some c =>
        rw [hc] at h
        show getPath (.block (zeroLoopOptimize.goL exprs)) (i :: p) = _
        simp only [getPath, zeroLoop_goL_eq, List.get?_map, hc, Option.map_some']
        exact ih c h
    | loop b => simp [getPath] at h
    | increment n => simp [getPath] at h
    | decrement n => simp [getPath] at h
    | printChar => simp [getPath] at h
    | readChar => simp [getPath] at h
    | shiftLeft n => simp [getPath] at h
    | shiftRight n => simp [getPath] at h
    | assign i v => simp [getPath] at h
    | assignCurrent v => simp [getPath] at h
    | printString v => simp [getPath] at h
    | setCellPointer v => simp [getPath] at h
    | readCharForget => simp [getPath] at h

mutual

theorem zeroLoop_id : (e : Expr) →
    (∀ pth, getPath e pth ≠ some (.loop (.block [.decrement 1]))) →
    zeroLoopOptimize e = e
  | .block exprs, h => by
    have hl : zeroLoopOptimize.goL exprs = exprs :=
      zeroLoop_id_list exprs (fun i c hc pth hp =>
        h (i :: pth) (by simp only [getPath, hc]; exact hp))
    simp only [zeroLoopOptimize, hl]
  | .loop b, h => by
    have hb : Expr.loop b ≠ .loop (.block [.decrement 1]) := by
      intro he
      exact h [] (by simp [getPath, he])
    unfold zeroLoopOptimize
    split
    · exact absurd rfl hb
    · rfl
  | .increment _, _ => rfl
  | .decrement _, _ => rfl
  | .printChar, _ => rfl
  | .readChar, _ => rfl
  | .shiftLeft _, _ => rfl
  | .shiftRight _, _ => rfl
  | .assign _ _, _ => rfl
  | .assignCurrent _, _ => rfl
  | .printString _, _ => rfl
  | .setCellPointer _, _ => rfl
  | .readCharForget, _ => rfl

theorem zeroLoop_id_list : (l : List Expr) →
    (∀ i c, l.get? i = some c →
      ∀ pth, getPath c pth ≠ some (.loop (.block [.decrement 1]))) →
    zeroLoopOptimize.goL l = l
  | [], _ => rfl
  | e :: r, h => by
    have h0 := h 0 e rfl
    have hr : ∀ i c, r.get? i = some c →
        ∀ pth, getPath c pth ≠ some (.loop (.block [.decrement 1])) :=
      fun i c hc => h (i + 1) c (by simpa using hc)
    simp only [zeroLoopOptimize.goL, zeroLoop_id e h0, zeroLoop_id_list r hr]

end

/-- C4.  ZeroLoopOptimizer::optimize rewrites every Loop whose body is
a Block holding exactly one Decrement with count 1 -- at the positions
reachable by recursing through Block children only (getPath) -- into
AssignCurrent 0, and is the identity on every tree with no such Loop
in a reachable position. -/
theorem C4_zero_loop_rewrite : ∀ e : Expr,
    (∀ pth, getPath e pth = some (.loop (.block [.decrement 1])) →
      getPath (zeroLoopOptimize e) pth = some (.assignCurrent 0)) ∧
    ((∀ pth, getPath e pth ≠ some (.loop (.block [.decrement 1]))) →
      zeroLoopOptimize e = e) :=
  fun e => ⟨fun pth h => zeroLoop_path pth e h, fun h => zeroLoop_id e h⟩

/-- Witness for C4: in Block [Increment 2, Loop (Block [Decrement 1])]
the loop at child index 1 is rewritten to AssignCurrent 0. -/
theorem C4_witness :
    getPath (zeroLoopOptimize (.block [.increment 2, .loop (.block [.decrement 1])]))
      [1] = some (.assignCurrent 0) :=
  (C4_zero_loop_rewrite _).1 [1] (by decide)

/-- C5.  The claim says a runtime error while speculatively running a
child makes the pass hand back the input tree exactly unchanged.  It
cannot: Interpreter::run never constructs its error value, so the Err
arm that would abandon the rewrite is dead code, and the one runtime
fault -- pointer underflow -- panics instead.  On Block [ShiftLeft 1]
the child's execution panics (usize underflow at pointer 0), the panic
propagates out of the walk uncaught, and the pass does not return the
unchanged tree: it panics.  (In a release build the pointer would wrap
and, on this input, the pass would still panic, at
vm.handler.out.last().unwrap() on an empty segment list.) -/
theorem C5_underflow_panics_pass :
    run specHandler 9 (.shiftLeft 1) initSpecVm = .panicked ∧
    specWalk 9 [.shiftLeft 1] initSpecVm = .panicked ∧
    specExecOptimize 9 (.block [.shiftLeft 1]) = .panicked := by
  decide

/-- C3.  The claim says SpecExecOptimizer::optimize completes normally
on every IR tree, including a Block whose speculatively executed
children emit no output and contain no reads, such as
Block [Increment 1].  It does not: with no output and no reads the
handler's segment list stays empty, and the emission code evaluates
vm.handler.out.len() - 1 (usize underflow) and
vm.handler.out.last().unwrap() on None -- a panic, modelled as
SpecRes.panicked.  The empty Block panics the same way. -/
theorem C3_spec_exec_panics_on_quiet_block :
    specExecOptimize 9 (.block [.increment 1]) = .panicked ∧
    specExecOptimize 9 (.block []) = .panicked := by
  decide

/-- C2.  Read-accounting counterexample: on Block [ReadChar,
AssignCurrent 0] the pass emits Block [PrintString ""] (the read pushed
the first and only output segment, so len - 1 = 0 ReadCharForget nodes
are emitted).  On input [65] the original tree consumes 1 byte, the
rewritten tree consumes 0, contradicting the claim that consumption is
preserved on every IR tree and stream. -/
theorem C2_read_accounting_lost :
    specExecOptimize 9 (.block [.readChar, .assignCurrent 0]) =
      .ok (.block [.printString []]) ∧
    resReads (run ioHandler 9 (.block [.readChar, .assignCurrent 0])
      (initInterp [65])) = some 1 ∧
    resReads (run ioHandler 9 (.block [.printString []]) (initInterp [65])) =
      some 0 := by
  decide

/-- C1.  End-to-end counterexample: for the source ",[-]+." the parsed
IR consumes 1 input byte, while the IR produced by Optimizer::optimize
(ZeroLoopOptimizer then SpecExecOptimizer) consumes 0 bytes on the same
stream [2]; the two output streams happen to agree ([1]) but the
consumed input prefixes differ, contradicting the claimed equivalence
for every source and stream. -/
theorem C1_pipeline_consumption_differs :
    parsedIR [',', '[', '-', ']', '+', '.'] =
      .block [.readChar, .loop (.block [.decrement 1]), .increment 1, .printChar] ∧
    optimizerOptimize 20
      (.block [.readChar, .loop (.block [.decrement 1]), .increment 1, .printChar]) =
      .ok (.block [.printString [1]]) ∧
    resOut (run ioHandler 20
      (.block [.readChar, .loop (.block [.decrement 1]), .increment 1, .printChar])
      (initInterp [2])) = some [1] ∧
    resOut (run ioHandler 20 (.block [.printString [1]]) (initInterp [2])) =
      some [1] ∧
    resReads (run ioHandler 20
      (.block [.readChar, .loop (.block [.decrement 1]), .increment 1, .printChar])
      (initInterp [2])) = some 1 ∧
    resReads (run ioHandler 20 (.block [.printString [1]]) (initInterp [2])) =
      some 0 := by
  decide

/-! ## mem_read accounting (C6) -/

theorem printString_events (value : List Nat) (h : IOSt) :
    (value.foldl (fun hh b => ioHandler.write_char b hh) h).events =
      h.events ++ value.map Ev.write := by
  induction value generalizing h with
  | nil => simp
  | cons b r ih => rw [List.foldl_cons, ih]; simp [ioHandler]

theorem memReadsOf_cells {st : Interp IOSt} (c : List Nat) (i : Nat) :
    memReadsOf { st with cells := c, current_cell_index := i } = memReadsOf st := rfl

theorem memReadsOf_stepMemRead (st : Interp IOSt) :
    memReadsOf (stepMemRead ioHandler st) = memReadsOf st + 1 := by
  simp [stepMemRead, ioHandler, memReadsOf, List.filter_append]

theorem memReads_pres : ∀ f : Nat,
    (∀ (e : Expr) (st st' : Interp IOSt), emitsMemRead e = false →
      run ioHandler f e st = .ok st' → memReadsOf st' = memReadsOf st) ∧
    (∀ (l : List Expr) (st st' : Interp IOSt), emitsMemRead.goL l = false →
      seqRun (run ioHandler f) l st = .ok st' → memReadsOf st' = memReadsOf st) := by
  intro f
  induction f with
  | zero =>
    constructor
    · intro e st st' _ h
      simp [run] at h
    · intro l st st' _ h
      cases l with
      | nil =>
        simp only [seqRun] at h
        cases h
        rfl
      | cons e r => simp [seqRun, run] at h
  | succ f ih =>
    have hP : ∀ (e : Expr) (st st' : Interp IOSt), emitsMemRead e = false →
        run ioHandler (f + 1) e st = .ok st' → memReadsOf st' = memReadsOf st := by
      intro e st st' he h
      cases e with
      | block l =>
        simp only [run] at h
        exact ih.2 l st st' (by simpa [emitsMemRead] using he) h
      | loop b => simp [emitsMemRead] at he
      | printChar => simp [emitsMemRead] at he
      | increment n =>
        simp only [run] at h
        cases h
        simp [stepIncrement, memReadsOf]
      | decrement n =>
        simp only [run] at h
        cases h
        simp [stepDecrement, memReadsOf]
      | readChar =>
        simp only [run] at h
        cases h
        simp [stepReadChar, ioHandler, memReadsOf, List.filter_append]
      | shiftLeft n =>
        simp only [run] at h
        split at h
        · cases h; rfl
        · cases h
      | shiftRight n =>
        simp only [run] at h
        cases h
        rfl
      | assign i v =>
        simp only [run] at h
        cases h
        rfl
      | assignCurrent v =>
        simp only [run] at h
        cases h
        rfl
      | printString v =>
        simp only [run] at h
        cases h
        simp only [stepPrintString, memReadsOf, printString_events, List.filter_append,
          List.length_append]
        have : (List.filter (fun ev => ev matches .memRead _) (v.map Ev.write)) = [] := by
          induction v with
          | nil => rfl
          | cons b r ihv => simpa using ihv
        simp [this]
      | setCellPointer v =>
        simp only [run] at h
        cases h
        rfl
      | readCharForget =>
        simp only [run] at h
        cases h
        simp [stepReadCharForget, ioHandler, memReadsOf, List.filter_append]
    have hQ : ∀ (l : List Expr) (st st' : Interp IOSt), emitsMemRead.goL l = false →
        seqRun (run ioHandler (f + 1)) l st = .ok st' → memReadsOf st' = memReadsOf st := by
      intro l
      induction l with
      | nil =>
        intro st st' _ h
        simp only [seqRun] at h
        cases h
        rfl
      | cons e r ihl =>
        intro st st' hl h
        simp only [emitsMemRead.goL, Bool.or_eq_false_iff] at hl
        simp only [seqRun] at h
        cases hr : run ioHandler (f + 1) e st with
        | ok st1 =>
          rw [hr] at h
          rw [ihl st1 st' hl.2 h, hP e st st1 hl.1 hr]
        | panicked => rw [hr] at h; cases h
        | nofuel => rw [hr] at h; cases h
    exact ⟨hP, hQ⟩

theorem loopWhile_memReads (body : Interp IOSt → RunRes IOSt)
    (hbody : ∀ s s', body s = .ok s' → memReadsOf s' = memReadsOf s) :
    ∀ (g : Nat) (st st' : Interp IOSt), loopWhile body g st = .ok st' →
      memReadsOf st' = memReadsOf st := by
  intro g
  induction g with
  | zero =>
    intro st st' h
    simp only [loopWhile] at h
    split at h
    · cases h; rfl
    · cases h
  | succ g ih =>
    intro st st' h
    simp only [loopWhile] at h
    split at h
    · cases h; rfl
    · cases hb : body { st with cells := (cellRead st.current_cell_index st.cells).2 } with
      | ok st2 =>
        rw [hb] at h
        rw [ih st2 st' h, hbody _ _ hb]
        rfl
      | panicked => rw [hb] at h; cases h
      | nofuel => rw [hb] at h; cases h

/-- C6 counterexample.  In Block [Increment 1, Loop (Block [Decrement 1])]
the loop body executes once, so the condition is observed twice (the
initial check and the re-check that exits), yet exactly one mem_read
event is issued: Interpreter::run calls handler.mem_read once before
the while loop, not before each condition check as the claim states. -/
theorem C6_counterexample :
    run ioHandler 9 (.block [.increment 1, .loop (.block [.decrement 1])])
      (initInterp []) =
      .ok { cells := [0], current_cell_index := 0,
            handler := { inp := [], events := [.memRead 0] } } := by
  decide

/-- C6 amended.  mem_read is invoked exactly once per execution of a
Loop node -- before the initial condition check, not before each
re-check: for a loop whose body issues no mem_read itself, a completed
execution adds exactly one mem_read event however many times the body
ran.  For PrintChar the claim holds as stated: the event log grows by
mem_read at the current index followed by the write of the current
cell, in that order. -/
theorem C6_memread_once_per_loop :
    (∀ (f : Nat) (b : Expr) (st st' : Interp IOSt), emitsMemRead b = false →
      run ioHandler (f + 1) (.loop b) st = .ok st' →
      memReadsOf st' = memReadsOf st + 1) ∧
    (∀ (f : Nat) (st st' : Interp IOSt),
      run ioHandler (f + 1) .printChar st = .ok st' →
      st'.handler.events =
        st.handler.events ++ [.memRead st.current_cell_index, .write (currentCell st)]) := by
  constructor
  · intro f b st st' he h
    simp only [run] at h
    have hb : ∀ s s', run ioHandler f b s = .ok s' → memReadsOf s' = memReadsOf s :=
      fun s s' hs => (memReads_pres f).1 b s s' he hs
    rw [loopWhile_memReads _ hb f _ st' h, memReadsOf_stepMemRead]
  · intro f st st' h
    simp only [run] at h
    cases h
    simp only [stepPrintChar, stepMemRead, ioHandler, currentCell]
    rw [cellRead_fst]
    simp

/-- Witness for the amended C6: the loop Block [Decrement 1] run from
cell value 1 issues exactly one mem_read event. -/
theorem C6_witness :
    memReadsOf { cells := [0], current_cell_index := 0,
                 handler := { inp := [], events := [.memRead 0] } } =
      memReadsOf ({ cells := [1], current_cell_index := 0,
                    handler := { inp := [], events := [] } } : Interp IOSt) + 1 :=
  C6_memread_once_per_loop.1 5 (.block [.decrement 1])
    { cells := [1], current_cell_index := 0, handler := { inp := [], events := [] } }
    { cells := [0], current_cell_index := 0,
      handler := { inp := [], events := [.memRead 0] } }
    (by decide) (by decide)

/-! ## uses_memory and the tape (C7) -/

theorem loopWhile_pure_body_diverges (g f : Nat) (ev : List Ev) :
    loopWhile (run ioHandler f (.block [.printString [120]])) g
      { cells := [1], current_cell_index := 0,
        handler := { inp := [], events := ev } } = .nofuel := by
  induction g generalizing ev f with
  | zero => simp [loopWhile, cellRead, extendCells]
  | succ g ih =>
    simp only [loopWhile]
    rw [if_neg (by simp [cellRead, extendCells])]
    match f with
    | 0 => simp [run]
    | 1 => simp [run, seqRun]
    | f + 2 =>
      simp only [run, seqRun, stepPrintString, cellRead, extendCells, ioHandler]
      simpa [cellRead, extendCells] using ih (f + 2) (ev ++ [.write 120])

/-- Even with unbounded fuel, the Loop with the pure body
Block [PrintString [120]] never terminates from a tape whose current
cell is 1: its condition genuinely reads the tape although uses_memory
is false on it. -/
theorem loop_pure_body_diverges (f : Nat) :
    run ioHandler f (.loop (.block [.printString [120]]))
      { cells := [1], current_cell_index := 0,
        handler := { inp := [], events := [] } } = .nofuel := by
  match f with
  | 0 => rfl
  | f + 1 =>
    simp only [run, stepMemRead, ioHandler]
    exact loopWhile_pure_body_diverges f f [.memRead 0]

/-- C7 counterexample.  uses_memory (Loop (Block [PrintString "x"])) is
false, yet the node's behavior depends on the tape: from cell value 0
it completes at once, from cell value 1 it loops forever (every fuel
bound is exhausted; see loop_pure_body_diverges).  So the claimed
equivalence "uses_memory e is true iff e can read from or write to the
tape or move the pointer" fails: the Loop condition reads the tape. -/
theorem C7_counterexample :
    Expr.uses_memory (.loop (.block [.printString [120]])) = false ∧
    run ioHandler 5 (.loop (.block [.printString [120]]))
      { cells := [0], current_cell_index := 0,
        handler := { inp := [], events := [] } } =
      .ok { cells := [0], current_cell_index := 0,
            handler := { inp := [], events := [.memRead 0] } } ∧
    run ioHandler 5 (.loop (.block [.printString [120]]))
      { cells := [1], current_cell_index := 0,
        handler := { inp := [], events := [] } } = .nofuel := by
  decide

theorem loopWhile_tape_pres {H : Type} (body : Interp H → RunRes H)
    (hbody : ∀ s, body s ≠ .panicked ∧
      (∀ s', body s = .ok s' → s'.current_cell_index = s.current_cell_index ∧
        ∀ j, s'.cells.getD j 0 = s.cells.getD j 0)) :
    ∀ (g : Nat) (st : Interp H), loopWhile body g st ≠ .panicked ∧
      (∀ st', loopWhile body g st = .ok st' →
        st'.current_cell_index = st.current_cell_index ∧
        ∀ j, st'.cells.getD j 0 = st.cells.getD j 0) := by
  intro g
  induction g with
  | zero =>
    intro st
    constructor
    · simp only [loopWhile]
      split <;> simp
    · intro st' h
      simp only [loopWhile] at h
      split at h
      · cases h
        exact ⟨rfl, fun j => cellRead_snd_getD _ _ j⟩
      · cases h
  | succ g ih =>
    intro st
    have key : ∀ st', loopWhile body (g + 1) st = .ok st' →
        st'.current_cell_index = st.current_cell_index ∧
        ∀ j, st'.cells.getD j 0 = st.cells.getD j 0 := by
      intro st' h
      simp only [loopWhile] at h
      split at h
      · cases h
        exact ⟨rfl, fun j => cellRead_snd_getD _ _ j⟩
      · cases hb : body { st with cells := (cellRead st.current_cell_index st.cells).2 } with
        | ok st2 =>
          rw [hb] at h
          have h1 := (hbody _).2 st2 hb
          have h2 := (ih st2).2 st' h
          refine ⟨by rw [h2.1, h1.1], fun j => ?_⟩
          rw [h2.2 j, h1.2 j]
          exact cellRead_snd_getD _ _ j
        | panicked => exact absurd hb ((hbody _).1)
        | nofuel => rw [hb] at h; cases h
    refine ⟨?_, key⟩
    intro hcontra
    simp only [loopWhile] at hcontra
    split at hcontra
    · cases hcontra
    · cases hb : body { st with cells := (cellRead st.current_cell_index st.cells).2 } with
      | ok st2 => rw [hb] at hcontra; exact (ih st2).1 hcontra
      | panicked => exact absurd hb ((hbody _).1)
      | nofuel => rw [hb] at hcontra; cases hcontra

theorem tape_pres : ∀ f : Nat,
    (∀ {H : Type} (hd : Handler H) (e : Expr) (st : Interp H), e.uses_memory = false →
      run hd f e st ≠ .panicked ∧
      (∀ st', run hd f e st = .ok st' → st'.current_cell_index = st.current_cell_index ∧
        ∀ j, st'.cells.getD j 0 = st.cells.getD j 0)) ∧
    (∀ {H : Type} (hd : Handler H) (l : List Expr) (st : Interp H),
      Expr.uses_memory.goL l = false →
      seqRun (run hd f) l st ≠ .panicked ∧
      (∀ st', seqRun (run hd f) l st = .ok st' →
        st'.current_cell_index = st.current_cell_index ∧
        ∀ j, st'.cells.getD j 0 = st.cells.getD j 0)) := by
  intro f
  induction f with
  | zero =>
    constructor
    · intro H hd e st _
      refine ⟨by simp [run], ?_⟩
      intro st' h
      simp [run] at h
    · intro H hd l st _
      cases l with
      | nil =>
        refine ⟨by simp [seqRun], ?_⟩
        intro st' h
        simp only [seqRun] at h
        cases h
        exact ⟨rfl, fun _ => rfl⟩
      | cons e r =>
        refine ⟨by simp [seqRun, run], ?_⟩
        intro st' h
        simp [seqRun, run] at h
  | succ f ih =>
    have hP : ∀ {H : Type} (hd : Handler H) (e : Expr) (st : Interp H),
        e.uses_memory = false →
        run hd (f + 1) e st ≠ .panicked ∧
        (∀ st', run hd (f + 1) e st = .ok st' →
          st'.current_cell_index = st.current_cell_index ∧
          ∀ j, st'.cells.getD j 0 = st.cells.getD j 0) := by
      intro H hd e st he
      cases e with
      | block l =>
        simp only [run]
        exact ih.2 hd l st (by simpa [Expr.uses_memory] using he)
      | loop b =>
        simp only [run]
        have hb : b.uses_memory = false := by simpa [Expr.uses_memory] using he
        have := loopWhile_tape_pres (run hd f b)
          (fun s => (ih.1 hd b s hb)) f (stepMemRead hd st)
        simpa [stepMemRead] using this
      | printString v =>
        refine ⟨by simp [run], ?_⟩
        intro st' h
        simp only [run] at h
        cases h
        exact ⟨rfl, fun _ => rfl⟩
      | readCharForget =>
        refine ⟨by simp [run], ?_⟩
        intro st' h
        simp only [run] at h
        cases h
        exact ⟨rfl, fun _ => rfl⟩
      | increment n => simp [Expr.uses_memory] at he
      | decrement n => simp [Expr.uses_memory] at he
      | printChar => simp [Expr.uses_memory] at he
      | readChar => simp [Expr.uses_memory] at he
      | shiftLeft n => simp [Expr.uses_memory] at he
      | shiftRight n => simp [Expr.uses_memory] at he
      | assign i v => simp [Expr.uses_memory] at he
      | assignCurrent v => simp [Expr.uses_memory] at he
      | setCellPointer v => simp [Expr.uses_memory] at he
    have hQ : ∀ {H : Type} (hd : Handler H) (l : List Expr) (st : Interp H),
        Expr.uses_memory.goL l = false →
        seqRun (run hd (f + 1)) l st ≠ .panicked ∧
        (∀ st', seqRun (run hd (f + 1)) l st = .ok st' →
          st'.current_cell_index = st.current_cell_index ∧
          ∀ j, st'.cells.getD j 0 = st.cells.getD j 0) := by
      intro H hd l
      induction l with
      | nil =>
        intro st _
        refine ⟨by simp [seqRun], ?_⟩
        intro st' h
        simp only [seqRun] at h
        cases h
        exact ⟨rfl, fun _ => rfl⟩
      | cons e r ihl =>
        intro st hl
        simp only [Expr.uses_memory.goL, Bool.or_eq_false_iff] at hl
        constructor
        · intro hcontra
          simp only [seqRun] at hcontra
          cases hr : run hd (f + 1) e st with
          | ok st1 => rw [hr] at hcontra; exact (ihl st1 hl.2).1 hcontra
          | panicked => exact absurd hr (hP hd e st hl.1).1
          | nofuel => rw [hr] at hcontra; cases hcontra
        · intro st' h
          simp only [seqRun] at h
          cases hr : run hd (f + 1) e st with
          | ok st1 =>
            rw [hr] at h
            have h1 := (hP hd e st hl.1).2 st1 hr
            have h2 := (ihl st1 hl.2).2 st' h
            exact ⟨by rw [h2.1, h1.1], fun j => by rw [h2.2 j, h1.2 j]⟩
          | panicked => exact absurd hr (hP hd e st hl.1).1
          | nofuel => rw [hr] at h; cases h
    exact ⟨fun hd e st he => hP hd e st he, fun hd l st hl => hQ hd l st hl⟩

/-- C7 amended.  The structural description stands: uses_memory is
false exactly for PrintString, ReadCharForget and Blocks/Loops built
of them.  The sound half of the semantic reading holds: whenever
uses_memory e is false, running e (under any handler) never faults and
never writes the tape or moves the pointer -- the tape is unchanged
cell-for-cell and the pointer is unchanged.  The converse ("true iff
can read") fails, because a Loop's condition reads the current cell
even when uses_memory is false (see C7_counterexample). -/
theorem C7_no_memory_effect (e : Expr) (he : e.uses_memory = false)
    {H : Type} (hd : Handler H) (f : Nat) (st : Interp H) :
    run hd f e st ≠ .panicked ∧
    (∀ st', run hd f e st = .ok st' →
      st'.current_cell_index = st.current_cell_index ∧
      ∀ j, st'.cells.getD j 0 = st.cells.getD j 0) :=
  (tape_pres f).1 hd e st he

/-- Witness for the amended C7 at PrintString: no fault, pointer and
tape preserved. -/
theorem C7_witness :
    run ioHandler 3 (.printString [5])
      { cells := [7], current_cell_index := 1,
        handler := { inp := [], events := [] } } ≠ .panicked :=
  (C7_no_memory_effect (.printString [5]) (by decide) ioHandler 3
    { cells := [7], current_cell_index := 1,
      handler := { inp := [], events := [] } }).1

/-! ## Lexer lemmas (C9) -/

theorem dropWhile_length_le (p : Char → Bool) :
    ∀ l : List Char, (l.dropWhile p).length ≤ l.length := by
  intro l
  induction l with
  | nil => simp
  | cons c r ih =>
    simp only [List.dropWhile]
    cases p c with
    | true => exact Nat.le_succ_of_le ih
    | false => simp

theorem lexGo_fuel : ∀ (f g : Nat) (l : List Char),
    l.length ≤ f → l.length ≤ g → lexGo f l = lexGo g l := by
  intro f
  induction f with
  | zero =>
    intro g l h1 _
    have : l = [] := by
      cases l with
      | nil => rfl
      | cons c r => simp at h1
    subst this
    simp [lexGo]
  | succ f ih =>
    intro g l h1 h2
    cases l with
    | nil => simp [lexGo]
    | cons c rest =>
      cases g with
      | zero => simp at h2
      | succ g' =>
        have hrest : rest.length ≤ f := by simpa using h1
        have hrest' : rest.length ≤ g' := by simpa using h2
        have hdw : ∀ p : Char → Bool,
            lexGo f (rest.dropWhile p) = lexGo g' (rest.dropWhile p) :=
          fun p => ih g' _ (le_trans (dropWhile_length_le p rest) hrest)
            (le_trans (dropWhile_length_le p rest) hrest')
        simp only [lexGo]
        by_cases hp : c = '+'
        · simp only [if_pos hp]; rw [hdw]
        simp only [if_neg hp]
        by_cases hm : c = '-'
        · simp only [if_pos hm]; rw [hdw]
        simp only [if_neg hm]
        by_cases hgt : c = '>'
        · simp only [if_pos hgt]; rw [hdw]
        simp only [if_neg hgt]
        by_cases hlt : c = '<'
        · simp only [if_pos hlt]; rw [hdw]
        simp only [if_neg hlt]
        by_cases hd : c = '.'
        · simp only [if_pos hd]; rw [ih g' rest hrest hrest']
        simp only [if_neg hd]
        by_cases hcm : c = ','
        · simp only [if_pos hcm]; rw [ih g' rest hrest hrest']
        simp only [if_neg hcm]
        by_cases hrb : c = ']'
        · simp only [if_pos hrb]; rw [ih g' rest hrest hrest']
        simp only [if_neg hrb]
        by_cases hlb : c = '['
        · simp only [if_pos hlb]; rw [ih g' rest hrest hrest']
        simp only [if_neg hlb]
        cases hdrop : rest.dropWhile (fun d => !is_bf_char d) with
        | nil => rfl
        | cons r rs =>
          have heq := hdw (fun d => !is_bf_char d)
          rw [hdrop] at heq
          simp only [heq]

theorem takeWhile_app (p : Char → Bool) (w : List Char) (c : Char) (s : List Char)
    (hw : ∀ d ∈ w, p d = true) (hc : p c = false) :
    (w ++ c :: s).takeWhile p = w ∧ (w ++ c :: s).dropWhile p = c :: s := by
  induction w with
  | nil => simp [List.takeWhile, List.dropWhile, hc]
  | cons d t ih =>
    have hd : p d = true := hw d (by simp)
    have ht : ∀ x ∈ t, p x = true := fun x hx => hw x (by simp [hx])
    have := ih ht
    simp [List.takeWhile, List.dropWhile, hd, this.1, this.2]

theorem takeWhile_all (p : Char → Bool) :
    ∀ w : List Char, (∀ d ∈ w, p d = true) →
      w.takeWhile p = w ∧ w.dropWhile p = [] := by
  intro w
  induction w with
  | nil => simp
  | cons d t ih =>
    intro hw
    have hd : p d = true := hw d (by simp)
    have := ih (fun x hx => hw x (by simp [hx]))
    simp [List.takeWhile, List.dropWhile, hd, this.1, this.2]

theorem lexGo_other_step (f : Nat) (c : Char) (rest : List Char)
    (hc : is_bf_char c = false) :
    lexGo (f + 1) (c :: rest) =
      (match rest.dropWhile (fun d => !is_bf_char d) with
      | [] => [.other ((c :: rest.takeWhile (fun d => !is_bf_char d)).dropLast)]
      | r :: rs =>
        .other (c :: rest.takeWhile (fun d => !is_bf_char d)) :: lexGo f (r :: rs)) := by
  have hc' : c ≠ '+' ∧ c ≠ '-' ∧ c ≠ '<' ∧ c ≠ '>' ∧ c ≠ '.' ∧
      c ≠ ',' ∧ c ≠ '[' ∧ c ≠ ']' := by
    simp only [is_bf_char, Bool.or_eq_false_iff, decide_eq_false_iff_not] at hc
    tauto
  simp only [lexGo, if_neg hc'.1, if_neg hc'.2.1, if_neg hc'.2.2.2.1,
    if_neg hc'.2.2.1, if_neg hc'.2.2.2.2.1, if_neg hc'.2.2.2.2.2.1,
    if_neg hc'.2.2.2.2.2.2.2, if_neg hc'.2.2.2.2.2.2.1]

/-- C9 counterexample.  On the input "ab" the maximal run of
non-command characters is "ab", and the claim says the single Other
token carries exactly that run.  Lexer::lex instead emits Other "a":
when the run reaches the end of input, end stays at the byte index of
the run's last character and data[start..end] drops it. -/
theorem C9_counterexample :
    lexTokens ['a', 'b'] = [.other ['a']] ∧
    lexTokens ['a', 'b'] ≠ [.other ['a', 'b']] := by
  decide

/-- C9 amended.  Lexing returns Ok on every input.  Each maximal run of
non-command characters yields exactly one Other token; when the run is
terminated by a command character the token carries exactly the run,
but when the run reaches the end of the input the token carries the
run without its final character. -/
theorem C9_other_token_runs :
    (∀ src, lex src = .ok (lexTokens src)) ∧
    (∀ (w : List Char) (c : Char) (s : List Char), w ≠ [] →
      (∀ d ∈ w, is_bf_char d = false) → is_bf_char c = true →
      lexTokens (w ++ c :: s) = .other w :: lexTokens (c :: s)) ∧
    (∀ w : List Char, w ≠ [] → (∀ d ∈ w, is_bf_char d = false) →
      lexTokens w = [.other w.dropLast]) := by
  refine ⟨fun _ => rfl, ?_, ?_⟩
  · intro w c s hne hw hc
    cases w with
    | nil => exact absurd rfl hne
    | cons w0 wt =>
      have hw0 : is_bf_char w0 = false := hw w0 (by simp)
      have hwt : ∀ d ∈ wt, (fun d => !is_bf_char d) d = true := by
        intro d hd
        simp [hw d (by simp [hd])]
      have hcb : (fun d => !is_bf_char d) c = false := by simp [hc]
      have happ := takeWhile_app (fun d => !is_bf_char d) wt c s hwt hcb
      show lexGo (((w0 :: wt) ++ c :: s).length + 1) ((w0 :: wt) ++ c :: s) = _
      rw [List.cons_append, lexGo_other_step _ w0 _ hw0, happ.1, happ.2]
      refine congrArg (fun ts => TokenData.other (w0 :: wt) :: ts) ?_
      refine lexGo_fuel _ _ (c :: s) ?_ ?_
      · simp only [List.length_cons, List.length_append]
        omega
      · simp only [List.length_cons, List.length_append]
        omega
  · intro w hne hw
    cases w with
    | nil => exact absurd rfl hne
    | cons w0 wt =>
      have hw0 : is_bf_char w0 = false := hw w0 (by simp)
      have hwt : ∀ d ∈ wt, (fun d => !is_bf_char d) d = true := by
        intro d hd
        simp [hw d (by simp [hd])]
      have hall := takeWhile_all (fun d => !is_bf_char d) wt hwt
      show lexGo ((w0 :: wt).length + 1) (w0 :: wt) = _
      rw [lexGo_other_step _ w0 _ hw0, hall.1, hall.2]

/-- Witness for the amended C9: the run "ab" terminated by '+' is
carried whole by its Other token. -/
theorem C9_witness :
    lexTokens ['a', 'b', '+'] = .other ['a', 'b'] :: lexTokens ['+'] :=
  C9_other_token_runs.2.1 ['a', 'b'] '+' [] (by decide) (by decide) (by decide)

/-! ## Front-end flattening (C10, phase A) -/

theorem from_char_none (c : Char) (hc : is_bf_char c = false) :
    Instruction.from_char c = none := by
  unfold Instruction.from_char
  split <;> simp_all [is_bf_char]

theorem mem_takeWhile {p : Char → Bool} :
    ∀ {l : List Char} {d : Char}, d ∈ l.takeWhile p → p d = true := by
  intro l
  induction l with
  | nil => intro d h; simp [List.takeWhile] at h
  | cons c r ih =>
    intro d h
    simp only [List.takeWhile] at h
    cases hc : p c with
    | true =>
      rw [hc] at h
      rcases List.mem_cons.mp h with h1 | h2
      · rw [h1]; exact hc
      · exact ih h2
    | false => rw [hc] at h; simp at h

theorem dropWhile_nil_all {p : Char → Bool} :
    ∀ {l : List Char}, l.dropWhile p = [] → ∀ d ∈ l, p d = true := by
  intro l
  induction l with
  | nil => intro _ d h; simp at h
  | cons c r ih =>
    intro hdrop d hd
    simp only [List.dropWhile] at hdrop
    cases hc : p c with
    | false => rw [hc] at hdrop; cases hdrop
    | true =>
      rw [hc] at hdrop
      rcases List.mem_cons.mp hd with h1 | h2
      · rw [h1]; exact hc
      · exact ih hdrop d h2

theorem filterMap_const (ins : Instruction) :
    ∀ l : List Char, (∀ d ∈ l, Instruction.from_char d = some ins) →
      l.filterMap Instruction.from_char = List.replicate l.length ins := by
  intro l
  induction l with
  | nil => intro _; rfl
  | cons c r ih =>
    intro h
    simp only [List.filterMap_cons, h c (by simp), List.length_cons,
      List.replicate_succ]
    rw [ih (fun d hd => h d (by simp [hd]))]

theorem filterMap_none_all :
    ∀ l : List Char, (∀ d ∈ l, Instruction.from_char d = none) →
      l.filterMap Instruction.from_char = [] := by
  intro l
  induction l with
  | nil => intro _; rfl
  | cons c r ih =>
    intro h
    simp only [List.filterMap_cons, h c (by simp)]
    exact ih (fun d hd => h d (by simp [hd]))

theorem toksFlat_append (a b : List TokenData) :
    toksFlat (a ++ b) = toksFlat a ++ toksFlat b := by
  induction a with
  | nil => rfl
  | cons t r ih => simp [toksFlat, ih]

theorem run_filterMap (c : Char) (ins : Instruction)
    (hc : Instruction.from_char c = some ins) (rest : List Char) :
    (rest.takeWhile (fun d => d = c)).filterMap Instruction.from_char =
      List.replicate (rest.takeWhile (fun d => d = c)).length ins := by
  refine filterMap_const ins _ (fun d hd => ?_)
  have : (fun d => decide (d = c)) d = true := mem_takeWhile hd
  simp only [decide_eq_true_eq] at this
  rw [this, hc]

theorem lex_flat : ∀ (f : Nat) (src : List Char), src.length ≤ f →
    toksFlat (lexGo f src) = src.filterMap Instruction.from_char := by
  intro f
  induction f with
  | zero =>
    intro src h
    have : src = [] := by
      cases src with
      | nil => rfl
      | cons c r => simp at h
    subst this
    rfl
  | succ f ih =>
    intro src h
    cases src with
    | nil => rfl
    | cons c rest =>
      have hrest : rest.length ≤ f := by simpa using h
      have hdw : ∀ p : Char → Bool, (rest.dropWhile p).length ≤ f :=
        fun p => le_trans (dropWhile_length_le p rest) hrest
      by_cases hp : c = '+'
      · subst hp
        simp only [lexGo, if_pos rfl, toksFlat, tokFlat, List.filterMap_cons]
        rw [ih _ (hdw _),
          show Instruction.from_char '+' = some .increment from rfl]
        conv_rhs => rw [← List.takeWhile_append_dropWhile (p := fun d => d = '+') (l := rest)]
        rw [List.filterMap_append, run_filterMap '+' .increment rfl rest,
          Nat.add_comm 1 _]
        simp [List.replicate_succ]
      simp only [lexGo, if_neg hp]
      by_cases hm : c = '-'
      · subst hm
        simp only [if_pos rfl, toksFlat, tokFlat, List.filterMap_cons]
        rw [ih _ (hdw _),
          show Instruction.from_char '-' = some .decrement from rfl]
        conv_rhs => rw [← List.takeWhile_append_dropWhile (p := fun d => d = '-') (l := rest)]
        rw [List.filterMap_append, run_filterMap '-' .decrement rfl rest,
          Nat.add_comm 1 _]
        simp [List.replicate_succ]
      simp only [if_neg hm]
      by_cases hgt : c = '>'
      · subst hgt
        simp only [if_pos rfl, toksFlat, tokFlat, List.filterMap_cons]
        rw [ih _ (hdw _),
          show Instruction.from_char '>' = some .shiftRight from rfl]
        conv_rhs => rw [← List.takeWhile_append_dropWhile (p := fun d => d = '>') (l := rest)]
        rw [List.filterMap_append, run_filterMap '>' .shiftRight rfl rest,
          Nat.add_comm 1 _]
        simp [List.replicate_succ]
      simp only [if_neg hgt]
      by_cases hlt : c = '<'
      · subst hlt
        simp only [if_pos rfl, toksFlat, tokFlat, List.filterMap_cons]
        rw [ih _ (hdw _),
          show Instruction.from_char '<' = some .shiftLeft from rfl]
        conv_rhs => rw [← List.takeWhile_append_dropWhile (p := fun d => d = '<') (l := rest)]
        rw [List.filterMap_append, run_filterMap '<' .shiftLeft rfl rest,
          Nat.add_comm 1 _]
        simp [List.replicate_succ]
      simp only [if_neg hlt]
      by_cases hd : c = '.'
      · subst hd
        simp only [if_pos rfl, toksFlat, tokFlat, List.filterMap_cons]
        rw [ih _ hrest]
        rfl
      simp only [if_neg hd]
      by_cases hcm : c = ','
      · subst hcm
        simp only [if_pos rfl, toksFlat, tokFlat, List.filterMap_cons]
        rw [ih _ hrest]
        rfl
      simp only [if_neg hcm]
      by_cases hrb : c = ']'
      · subst hrb
        simp only [if_pos rfl, toksFlat, tokFlat, List.filterMap_cons]
        rw [ih _ hrest]
        rfl
      simp only [if_neg hrb]
      by_cases hlb : c = '['
      · subst hlb
        simp only [if_pos rfl, toksFlat, tokFlat, List.filterMap_cons]
        rw [ih _ hrest]
        rfl
      simp only [if_neg hlb]
      have hcbf : is_bf_char c = false := by
        simp [is_bf_char, hp, hm, hgt, hlt, hd, hcm, hrb, hlb]
      have hcnone : Instruction.from_char c = none := from_char_none c hcbf
      cases hdrop : rest.dropWhile (fun d => !is_bf_char d) with
      | nil =>
        simp only [hdrop, toksFlat, tokFlat, List.filterMap_cons, hcnone]
        have hall : ∀ d ∈ rest, Instruction.from_char d = none := by
          intro d hdm
          have hbf := dropWhile_nil_all hdrop d hdm
          simp only [Bool.not_eq_true'] at hbf
          exact from_char_none d hbf
        rw [filterMap_none_all rest hall]
        rfl
      | cons r rs =>
        simp only [hdrop, toksFlat, tokFlat, List.nil_append, List.filterMap_cons, hcnone]
        rw [ih (r :: rs) (by rw [← hdrop]; exact hdw _)]
        conv_rhs => rw [← List.takeWhile_append_dropWhile
          (p := fun d => !is_bf_char d) (l := rest), hdrop]
        rw [List.filterMap_append]
        have hall : ∀ d ∈ rest.takeWhile (fun d => !is_bf_char d),
            Instruction.from_char d = none := by
          intro d hdm
          have hbf := mem_takeWhile hdm
          simp only [Bool.not_eq_true'] at hbf
          exact from_char_none d hbf
        rw [filterMap_none_all _ hall]
        rfl

/-- The token stream of a source flattens to its v1 instruction list. -/
theorem lexTokens_flat (src : List Char) :
    toksFlat (lexTokens src) = src.filterMap Instruction.from_char :=
  lex_flat (src.length + 1) src (by omega)

/-! ## Bracket-depth lemmas (C10, phase A) -/

theorem cnt_append : ∀ (a b : List Instruction) (d : Nat),
    cnt (a ++ b) d = (cnt a d).bind (fun e => cnt b e) := by
  intro a
  induction a with
  | nil => intro b d; rfl
  | cons ins r ih =>
    intro b d
    cases ins with
    | startLoop => simp only [List.cons_append, cnt]; exact ih b (d + 1)
    | endLoop =>
      simp only [List.cons_append, cnt]
      by_cases hd : d = 0
      · simp [hd]
      · simp only [if_neg hd]; exact ih b (d - 1)
    | shiftLeft => simp only [List.cons_append, cnt]; exact ih b d
    | shiftRight => simp only [List.cons_append, cnt]; exact ih b d
    | increment => simp only [List.cons_append, cnt]; exact ih b d
    | decrement => simp only [List.cons_append, cnt]; exact ih b d
    | read => simp only [List.cons_append, cnt]; exact ih b d
    | print => simp only [List.cons_append, cnt]; exact ih b d

theorem cnt_shift : ∀ (l : List Instruction) (d e c : Nat),
    cnt l d = some e → cnt l (d + c) = some (e + c) := by
  intro l
  induction l with
  | nil =>
    intro d e c h
    simp only [cnt, Option.some.injEq] at h ⊢
    omega
  | cons ins r ih =>
    intro d e c h
    cases ins with
    | startLoop =>
      simp only [cnt] at h ⊢
      have := ih (d + 1) e c h
      simpa [Nat.add_right_comm] using this
    | endLoop =>
      simp only [cnt] at h ⊢
      by_cases hd : d = 0
      · simp [hd] at h
      · rw [if_neg hd] at h
        rw [if_neg (by omega)]
        have := ih (d - 1) e c h
        rw [show d + c - 1 = d - 1 + c by omega]
        exact this
    | shiftLeft => simp only [cnt] at h ⊢; exact ih d e c h
    | shiftRight => simp only [cnt] at h ⊢; exact ih d e c h
    | increment => simp only [cnt] at h ⊢; exact ih d e c h
    | decrement => simp only [cnt] at h ⊢; exact ih d e c h
    | read => simp only [cnt] at h ⊢; exact ih d e c h
    | print => simp only [cnt] at h ⊢; exact ih d e c h

theorem cnt_nobracket : ∀ (l : List Instruction),
    (∀ i ∈ l, i ≠ .startLoop ∧ i ≠ .endLoop) → ∀ d, cnt l d = some d := by
  intro l
  induction l with
  | nil => intro _ d; rfl
  | cons ins r ih =>
    intro h d
    have hi := h ins (by simp)
    have hr : ∀ i ∈ r, i ≠ Instruction.startLoop ∧ i ≠ Instruction.endLoop :=
      fun i hm => h i (by simp [hm])
    cases ins with
    | startLoop => exact absurd rfl hi.1
    | endLoop => exact absurd rfl hi.2
    | shiftLeft => simp only [cnt]; exact ih hr d
    | shiftRight => simp only [cnt]; exact ih hr d
    | increment => simp only [cnt]; exact ih hr d
    | decrement => simp only [cnt]; exact ih hr d
    | read => simp only [cnt]; exact ih hr d
    | print => simp only [cnt]; exact ih hr d

theorem cnt_decomp : ∀ (n : Nat) (l : List Instruction), l.length ≤ n →
    ∀ d : Nat, cnt l (d + 1) = some 0 →
    ∃ m k, l = m ++ .endLoop :: k ∧ cnt m 0 = some 0 ∧ cnt k d = some 0 := by
  intro n
  induction n with
  | zero =>
    intro l hl d h
    have : l = [] := List.length_eq_zero.mp (by omega)
    subst this
    simp [cnt] at h
  | succ n ih =>
    intro l hl d h
    cases l with
    | nil => simp [cnt] at h
    | cons ins r =>
      have hr : r.length ≤ n := by simpa using hl
      cases ins with
      | startLoop =>
        simp only [cnt] at h
        obtain ⟨m1, k1, hr1, hm1, hk1⟩ := ih r hr (d + 1) h
        have hk1len : k1.length ≤ n := by
          have : r.length = m1.length + 1 + k1.length := by simp [hr1]; omega
          omega
        obtain ⟨m2, k2, hk12, hm2, hk2⟩ := ih k1 hk1len d hk1
        refine ⟨.startLoop :: (m1 ++ .endLoop :: m2), k2, ?_, ?_, hk2⟩
        · simp [hr1, hk12]
        · have h1 : cnt m1 1 = some 1 := by simpa using cnt_shift m1 0 0 1 hm1
          simp only [cnt]
          rw [cnt_append, h1]
          simp [cnt, hm2]
      | endLoop =>
        simp only [cnt, if_neg (by omega : ¬d + 1 = 0)] at h
        exact ⟨[], r, rfl, rfl, by simpa using h⟩
      | shiftLeft =>
        simp only [cnt] at h
        obtain ⟨m1, k1, hr1, hm1, hk1⟩ := ih r hr d h
        exact ⟨.shiftLeft :: m1, k1, by simp [hr1], by simpa [cnt] using hm1, hk1⟩
      | shiftRight =>
        simp only [cnt] at h
        obtain ⟨m1, k1, hr1, hm1, hk1⟩ := ih r hr d h
        exact ⟨.shiftRight :: m1, k1, by simp [hr1], by simpa [cnt] using hm1, hk1⟩
      | increment =>
        simp only [cnt] at h
        obtain ⟨m1, k1, hr1, hm1, hk1⟩ := ih r hr d h
        exact ⟨.increment :: m1, k1, by simp [hr1], by simpa [cnt] using hm1, hk1⟩
      | decrement =>
        simp only [cnt] at h
        obtain ⟨m1, k1, hr1, hm1, hk1⟩ := ih r hr d h
        exact ⟨.decrement :: m1, k1, by simp [hr1], by simpa [cnt] using hm1, hk1⟩
      | read =>
        simp only [cnt] at h
        obtain ⟨m1, k1, hr1, hm1, hk1⟩ := ih r hr d h
        exact ⟨.read :: m1, k1, by simp [hr1], by simpa [cnt] using hm1, hk1⟩
      | print =>
        simp only [cnt] at h
        obtain ⟨m1, k1, hr1, hm1, hk1⟩ := ih r hr d h
        exact ⟨.print :: m1, k1, by simp [hr1], by simpa [cnt] using hm1, hk1⟩

/-! ## Parser correctness on balanced streams (C10, phase A) -/

theorem split_prefix : ∀ (pre : List Instruction), Instruction.endLoop ∉ pre →
    ∀ (X m k : List Instruction), pre ++ X = m ++ .endLoop :: k →
    ∃ m', m = pre ++ m' ∧ X = m' ++ .endLoop :: k := by
  intro pre
  induction pre with
  | nil =>
    intro _ X m k h
    exact ⟨m, rfl, h⟩
  | cons p pr ih =>
    intro hnm X m k h
    cases m with
    | nil =>
      simp only [List.nil_append, List.cons_append, List.cons.injEq] at h
      exact absurd (h.1 ▸ List.mem_cons_self p pr) hnm
    | cons q m1 =>
      simp only [List.cons_append, List.cons.injEq] at h
      obtain ⟨m', hm', hX⟩ := ih (fun hmem => hnm (List.mem_cons_of_mem p hmem))
        X m1 k h.2
      exact ⟨m', by simp [h.1, hm'], hX⟩

theorem endLoop_not_mem_replicate (n : Nat) (ins : Instruction)
    (h : ins ≠ .endLoop) : Instruction.endLoop ∉ List.replicate n ins := by
  intro hm
  rw [List.eq_of_mem_replicate hm] at h
  exact h rfl

theorem replicate_nobracket (n : Nat) (ins : Instruction)
    (h1 : ins ≠ .startLoop) (h2 : ins ≠ .endLoop) (d : Nat) :
    cnt (List.replicate n ins) d = some d :=
  cnt_nobracket _ (fun i hm => by rw [List.eq_of_mem_replicate hm]; exact ⟨h1, h2⟩) d

theorem parse_inner : ∀ (n : Nat) (toks : List TokenData), toks.length ≤ n →
    ∀ (f lc : Nat), toks.length < f →
    ∀ (m k : List Instruction), toksFlat toks = m ++ .endLoop :: k →
    cnt m 0 = some 0 →
    ∃ es rest,
      parseGo f toks (lc + 1) = (es, rest, lc) ∧
      flatten.goL es = m ∧
      toksFlat rest = k ∧ rest.length ≤ toks.length := by
  intro n
  induction n with
  | zero =>
    intro toks htoks f lc _ m k hflat _
    have : toks = [] := List.length_eq_zero.mp (by omega)
    subst this
    simp only [toksFlat] at hflat
    exact absurd hflat.symm (by simp)
  | succ n ih =>
    intro toks htoks f lc hf m k hflat hm
    cases toks with
    | nil =>
      simp only [toksFlat] at hflat
      exact absurd hflat.symm (by simp)
    | cons t ts =>
      have hts : ts.length ≤ n := by simpa using htoks
      obtain ⟨f', rfl⟩ : ∃ f', f = f' + 1 := ⟨f - 1, by omega⟩
      have hf' : ts.length < f' := by
        simp only [List.length_cons] at hf
        omega
      cases t with
      | increment q =>
        simp only [toksFlat, tokFlat] at hflat
        obtain ⟨m', hm', hX⟩ := split_prefix _
          (endLoop_not_mem_replicate q .increment (by simp)) _ _ _ hflat
        subst hm'
        rw [cnt_append, replicate_nobracket q .increment (by simp) (by simp)] at hm
        simp only [Option.some_bind] at hm
        obtain ⟨es, rest, hp, hfl, hk, hlen⟩ := ih ts hts f' lc hf' m' k hX hm
        refine ⟨.increment q :: es, rest, ?_, ?_, hk, le_trans hlen (by simp)⟩
        · simp only [parseGo, hp]
        · simp [flatten.goL, flatten, hfl]
      | decrement q =>
        simp only [toksFlat, tokFlat] at hflat
        obtain ⟨m', hm', hX⟩ := split_prefix _
          (endLoop_not_mem_replicate q .decrement (by simp)) _ _ _ hflat
        subst hm'
        rw [cnt_append, replicate_nobracket q .decrement (by simp) (by simp)] at hm
        simp only [Option.some_bind] at hm
        obtain ⟨es, rest, hp, hfl, hk, hlen⟩ := ih ts hts f' lc hf' m' k hX hm
        refine ⟨.decrement q :: es, rest, ?_, ?_, hk, le_trans hlen (by simp)⟩
        · simp only [parseGo, hp]
        · simp [flatten.goL, flatten, hfl]
      | shiftLeft q =>
        simp only [toksFlat, tokFlat] at hflat
        obtain ⟨m', hm', hX⟩ := split_prefix _
          (endLoop_not_mem_replicate q .shiftLeft (by simp)) _ _ _ hflat
        subst hm'
        rw [cnt_append, replicate_nobracket q .shiftLeft (by simp) (by simp)] at hm
        simp only [Option.some_bind] at hm
        obtain ⟨es, rest, hp, hfl, hk, hlen⟩ := ih ts hts f' lc hf' m' k hX hm
        refine ⟨.shiftLeft q :: es, rest, ?_, ?_, hk, le_trans hlen (by simp)⟩
        · simp only [parseGo, hp]
        · simp [flatten.goL, flatten, hfl]
      | shiftRight q =>
        simp only [toksFlat, tokFlat] at hflat
        obtain ⟨m', hm', hX⟩ := split_prefix _
          (endLoop_not_mem_replicate q .shiftRight (by simp)) _ _ _ hflat
        subst hm'
        rw [cnt_append, replicate_nobracket q .shiftRight (by simp) (by simp)] at hm
        simp only [Option.some_bind] at hm
        obtain ⟨es, rest, hp, hfl, hk, hlen⟩ := ih ts hts f' lc hf' m' k hX hm
        refine ⟨.shiftRight q :: es, rest, ?_, ?_, hk, le_trans hlen (by simp)⟩
        · simp only [parseGo, hp]
        · simp [flatten.goL, flatten, hfl]
      | print =>
        simp only [toksFlat, tokFlat] at hflat
        obtain ⟨m', hm', hX⟩ := split_prefix [.print] (by simp) _ _ _ hflat
        subst hm'
        rw [cnt_append, cnt_nobracket [.print] (by simp) 0] at hm
        simp only [Option.some_bind] at hm
        obtain ⟨es, rest, hp, hfl, hk, hlen⟩ := ih ts hts f' lc hf' m' k hX hm
        refine ⟨.printChar :: es, rest, ?_, ?_, hk, le_trans hlen (by simp)⟩
        · simp only [parseGo, hp]
        · simp [flatten.goL, flatten, hfl]
      | read =>
        simp only [toksFlat, tokFlat] at hflat
        obtain ⟨m', hm', hX⟩ := split_prefix [.read] (by simp) _ _ _ hflat
        subst hm'
        rw [cnt_append, cnt_nobracket [.read] (by simp) 0] at hm
        simp only [Option.some_bind] at hm
        obtain ⟨es, rest, hp, hfl, hk, hlen⟩ := ih ts hts f' lc hf' m' k hX hm
        refine ⟨.readChar :: es, rest, ?_, ?_, hk, le_trans hlen (by simp)⟩
        · simp only [parseGo, hp]
        · simp [flatten.goL, flatten, hfl]
      | other s =>
        simp only [toksFlat, tokFlat, List.nil_append] at hflat
        obtain ⟨es, rest, hp, hfl, hk, hlen⟩ := ih ts hts f' lc hf' m k hflat hm
        exact ⟨es, rest, by simp only [parseGo, hp], hfl, hk, le_trans hlen (by simp)⟩
      | endLoop =>
        have hmnil : m = [] := by
          cases m with
          | nil => rfl
          | cons q m1 =>
            simp only [toksFlat, tokFlat, List.cons_append, List.singleton_append,
              List.cons.injEq] at hflat
            rw [← hflat.1] at hm
            simp [cnt] at hm
        subst hmnil
        simp only [toksFlat, tokFlat, List.singleton_append, List.nil_append,
          List.cons.injEq, true_and] at hflat
        refine ⟨[], ts, ?_, rfl, hflat, by simp⟩
        simp [parseGo]
      | startLoop =>
        cases m with
        | nil =>
          simp only [toksFlat, tokFlat, List.singleton_append, List.nil_append,
            List.cons.injEq] at hflat
          cases hflat.1
        | cons q m1 =>
          simp only [toksFlat, tokFlat, List.singleton_append, List.cons_append,
            List.nil_append, List.cons.injEq] at hflat
          have hq : q = Instruction.startLoop := hflat.1.symm
          subst hq
          have hm1 : cnt m1 1 = some 0 := by simpa [cnt] using hm
          obtain ⟨body, tail, hm1eq, hbody, htail⟩ := cnt_decomp m1.length m1 le_rfl 0
            (by simpa using hm1)
          have hts2 : toksFlat ts = body ++ .endLoop :: (tail ++ .endLoop :: k) := by
            rw [hflat.2, hm1eq]
            simp
          obtain ⟨bodyEs, rest1, hp1, hfl1, hk1, hlen1⟩ :=
            ih ts hts f' (lc + 1) hf' body (tail ++ .endLoop :: k) hts2 hbody
          have hrest1len : rest1.length ≤ n := le_trans hlen1 hts
          have hrest1f : rest1.length < f' := by omega
          obtain ⟨es2, rest2, hp2, hfl2, hk2, hlen2⟩ :=
            ih rest1 hrest1len f' lc hrest1f tail k hk1 htail
          refine ⟨.loop (.block bodyEs) :: es2, rest2, ?_, ?_, hk2,
            le_trans hlen2 (le_trans hlen1 (by simp))⟩
          · simp only [parseGo, hp1, hp2]
          · simp only [flatten.goL, flatten, hfl1, hfl2, hm1eq]
            simp

theorem parse_top : ∀ (n : Nat) (toks : List TokenData), toks.length ≤ n →
    ∀ f, toks.length < f → cnt (toksFlat toks) 0 = some 0 →
    ∃ es, parseGo f toks 0 = (es, [], 0) ∧ flatten.goL es = toksFlat toks := by
  intro n
  induction n with
  | zero =>
    intro toks htoks f hf _
    have : toks = [] := List.length_eq_zero.mp (by omega)
    subst this
    obtain ⟨f', rfl⟩ : ∃ f', f = f' + 1 := ⟨f - 1, by omega⟩
    exact ⟨[], rfl, rfl⟩
  | succ n ih =>
    intro toks htoks f hf hcnt
    cases toks with
    | nil =>
      obtain ⟨f', rfl⟩ : ∃ f', f = f' + 1 := ⟨f - 1, by omega⟩
      exact ⟨[], rfl, rfl⟩
    | cons t ts =>
      have hts : ts.length ≤ n := by simpa using htoks
      obtain ⟨f', rfl⟩ : ∃ f', f = f' + 1 := ⟨f - 1, by omega⟩
      have hf' : ts.length < f' := by
        simp only [List.length_cons] at hf
        omega
      cases t with
      | increment q =>
        simp only [toksFlat, tokFlat, cnt_append,
          replicate_nobracket q .increment (by simp) (by simp),
          Option.some_bind] at hcnt
        obtain ⟨es, hp, hfl⟩ := ih ts hts f' hf' hcnt
        exact ⟨.increment q :: es, by simp only [parseGo, hp],
          by simp [flatten.goL, flatten, hfl, toksFlat, tokFlat]⟩
      | decrement q =>
        simp only [toksFlat, tokFlat, cnt_append,
          replicate_nobracket q .decrement (by simp) (by simp),
          Option.some_bind] at hcnt
        obtain ⟨es, hp, hfl⟩ := ih ts hts f' hf' hcnt
        exact ⟨.decrement q :: es, by simp only [parseGo, hp],
          by simp [flatten.goL, flatten, hfl, toksFlat, tokFlat]⟩
      | shiftLeft q =>
        simp only [toksFlat, tokFlat, cnt_append,
          replicate_nobracket q .shiftLeft (by simp) (by simp),
          Option.some_bind] at hcnt
        obtain ⟨es, hp, hfl⟩ := ih ts hts f' hf' hcnt
        exact ⟨.shiftLeft q :: es, by simp only [parseGo, hp],
          by simp [flatten.goL, flatten, hfl, toksFlat, tokFlat]⟩
      | shiftRight q =>
        simp only [toksFlat, tokFlat, cnt_append,
          replicate_nobracket q .shiftRight (by simp) (by simp),
          Option.some_bind] at hcnt
        obtain ⟨es, hp, hfl⟩ := ih ts hts f' hf' hcnt
        exact ⟨.shiftRight q :: es, by simp only [parseGo, hp],
          by simp [flatten.goL, flatten, hfl, toksFlat, tokFlat]⟩
      | print =>
        simp only [toksFlat, tokFlat, List.singleton_append, cnt] at hcnt
        obtain ⟨es, hp, hfl⟩ := ih ts hts f' hf' hcnt
        exact ⟨.printChar :: es, by simp only [parseGo, hp],
          by simp [flatten.goL, flatten, hfl, toksFlat, tokFlat]⟩
      | read =>
        simp only [toksFlat, tokFlat, List.singleton_append, cnt] at hcnt
        obtain ⟨es, hp, hfl⟩ := ih ts hts f' hf' hcnt
        exact ⟨.readChar :: es, by simp only [parseGo, hp],
          by simp [flatten.goL, flatten, hfl, toksFlat, tokFlat]⟩
      | other s =>
        simp only [toksFlat, tokFlat, List.nil_append] at hcnt
        obtain ⟨es, hp, hfl⟩ := ih ts hts f' hf' hcnt
        exact ⟨es, by simp only [parseGo, hp], by simp [toksFlat, tokFlat, hfl]⟩
      | endLoop =>
        simp only [toksFlat, tokFlat, List.singleton_append, cnt] at hcnt
        simp at hcnt
      | startLoop =>
        simp only [toksFlat, tokFlat, List.singleton_append, cnt] at hcnt
        obtain ⟨body, tail, hts2, hbody, htail⟩ :=
          cnt_decomp (toksFlat ts).length (toksFlat ts) le_rfl 0 (by simpa using hcnt)
        obtain ⟨bodyEs, rest1, hp1, hfl1, hk1, hlen1⟩ :=
          parse_inner ts.length ts le_rfl f' 0 hf' body tail hts2 hbody
        have hrest1len : rest1.length ≤ n := le_trans hlen1 hts
        have hrest1f : rest1.length < f' := by omega
        have hcnt1 : cnt (toksFlat rest1) 0 = some 0 := by rw [hk1]; exact htail
        obtain ⟨es2, hp2, hfl2⟩ := ih rest1 hrest1len f' hrest1f hcnt1
        refine ⟨.loop (.block bodyEs) :: es2, ?_, ?_⟩
        · simp only [parseGo, hp1, hp2]
        · simp only [flatten.goL, flatten, hfl1, hfl2, hk1, toksFlat, tokFlat, hts2]
          simp

theorem parseGo_faithful : ∀ (f : Nat) (toks : List TokenData) (lc : Nat),
    srcFaithful.goL (parseGo f toks lc).1 = true := by
  intro f
  induction f with
  | zero => intro toks lc; rfl
  | succ f ih =>
    intro toks lc
    cases toks with
    | nil => rfl
    | cons t ts =>
      cases t with
      | increment q => simp [parseGo, srcFaithful.goL, srcFaithful, ih ts lc]
      | decrement q => simp [parseGo, srcFaithful.goL, srcFaithful, ih ts lc]
      | shiftLeft q => simp [parseGo, srcFaithful.goL, srcFaithful, ih ts lc]
      | shiftRight q => simp [parseGo, srcFaithful.goL, srcFaithful, ih ts lc]
      | print => simp [parseGo, srcFaithful.goL, srcFaithful, ih ts lc]
      | read => simp [parseGo, srcFaithful.goL, srcFaithful, ih ts lc]
      | other s => simp [parseGo, ih ts lc]
      | startLoop =>
        simp only [parseGo]
        simp [srcFaithful.goL, srcFaithful, ih ts (lc + 1),
          ih (parseGo f ts (lc + 1)).2.1 (parseGo f ts (lc + 1)).2.2]
      | endLoop =>
        by_cases hlc : lc > 0
        · simp [parseGo, hlc, srcFaithful.goL]
        · simp [parseGo, hlc, ih ts lc]

/-- On a balanced source, the parsed IR is source-faithful and flattens
back to the instruction list of the source. -/
theorem parsedIR_flat (src : List Char) (hb : balancedSrc src) :
    srcFaithful (parsedIR src) = true ∧
    flatten (parsedIR src) = src.filterMap Instruction.from_char := by
  have hcnt : cnt (toksFlat (lexTokens src)) 0 = some 0 := by
    rw [lexTokens_flat]
    exact hb
  obtain ⟨es, hp, hfl⟩ := parse_top (lexTokens src).length (lexTokens src) le_rfl
    ((lexTokens src).length + 1) (by omega) hcnt
  constructor
  · show srcFaithful (.block (parseGo ((lexTokens src).length + 1) (lexTokens src) 0).1) = true
    show srcFaithful.goL (parseGo ((lexTokens src).length + 1) (lexTokens src) 0).1 = true
    exact parseGo_faithful _ _ _
  · show flatten (.block (parseGo ((lexTokens src).length + 1) (lexTokens src) 0).1) =
      _
    rw [hp]
    show flatten.goL es = _
    rw [hfl, lexTokens_flat]

/-! ## Machine-step lemmas (C10, phase B) -/

theorem stepN_add (code : List Instruction) :
    ∀ (k1 k2 : Nat) (s s1 : V1), stepN code k1 s = .ok s1 →
      stepN code (k1 + k2) s = stepN code k2 s1 := by
  intro k1
  induction k1 with
  | zero =>
    intro k2 s s1 h
    simp only [stepN] at h
    cases h
    rw [Nat.zero_add]
  | succ k1 ih =>
    intro k2 s s1 h
    simp only [stepN] at h
    rw [show k1 + 1 + k2 = (k1 + k2) + 1 by omega]
    simp only [stepN]
    cases hs : v1step code s with
    | ok s0 =>
      rw [hs] at h
      exact ih k2 s0 s1 h
    | fault => rw [hs] at h; cases h

theorem get?_at_len :
    ∀ (pre : List Instruction) (x : Instruction) (rest : List Instruction),
      (pre ++ x :: rest).get? pre.length = some x := by
  intro pre
  induction pre with
  | nil => intro x rest; rfl
  | cons p pr ih => intro x rest; simpa using ih x rest

theorem findEnd_cons_start (r : List Instruction) (fs : Nat) :
    findEnd (.startLoop :: r) fs = (findEnd r (fs + 1)).map Nat.succ := by
  simp [findEnd, Instruction.is_end_loop, Instruction.is_start_loop]

theorem findEnd_cons_end (r : List Instruction) (fs : Nat) :
    findEnd (.endLoop :: r) fs =
      if 1 < fs then (findEnd r (fs - 1)).map Nat.succ
      else if fs = 1 then some 0
      else (findEnd r fs).map Nat.succ := by
  simp only [findEnd, Instruction.is_end_loop, Instruction.is_start_loop]
  by_cases h1 : 1 < fs
  · simp [h1]
  · by_cases h2 : fs = 1 <;> simp [h1, h2]

theorem findEnd_cons_other (ins : Instruction) (h1 : ins.is_start_loop = false)
    (h2 : ins.is_end_loop = false) (r : List Instruction) (fs : Nat) :
    findEnd (ins :: r) fs = (findEnd r fs).map Nat.succ := by
  simp [findEnd, h1, h2]

theorem map_succ_add (X : Option Nat) (len : Nat) :
    (X.map (fun x => x + len)).map Nat.succ = X.map (fun x => x + (len + 1)) := by
  cases X <;> simp <;> omega

theorem findEnd_pass : ∀ (m : List Instruction) (d : Nat) (r : List Instruction)
    (e : Nat), cnt m d = some e →
    findEnd (m ++ r) (d + 1) = (findEnd r (e + 1)).map (fun x => x + m.length) := by
  intro m
  induction m with
  | nil =>
    intro d r e h
    simp only [cnt, Option.some.injEq] at h
    subst h
    simp only [List.nil_append, List.length_nil]
    cases findEnd r (d + 1) <;> simp
  | cons ins m1 ih =>
    intro d r e h
    cases ins with
    | startLoop =>
      simp only [cnt] at h
      have heq := ih (d + 1) r e h
      rw [List.cons_append, findEnd_cons_start, heq, map_succ_add]
      simp
    | endLoop =>
      simp only [cnt] at h
      by_cases hd : d = 0
      · simp [hd] at h
      · rw [if_neg hd] at h
        have heq := ih (d - 1) r e h
        rw [List.cons_append, findEnd_cons_end, if_pos (by omega),
          show d + 1 - 1 = d - 1 + 1 by omega, heq, map_succ_add]
        simp
    | shiftLeft =>
      simp only [cnt] at h
      rw [List.cons_append, findEnd_cons_other .shiftLeft rfl rfl, ih d r e h, map_succ_add]
      simp
    | shiftRight =>
      simp only [cnt] at h
      rw [List.cons_append, findEnd_cons_other .shiftRight rfl rfl, ih d r e h, map_succ_add]
      simp
    | increment =>
      simp only [cnt] at h
      rw [List.cons_append, findEnd_cons_other .increment rfl rfl, ih d r e h, map_succ_add]
      simp
    | decrement =>
      simp only [cnt] at h
      rw [List.cons_append, findEnd_cons_other .decrement rfl rfl, ih d r e h, map_succ_add]
      simp
    | read =>
      simp only [cnt] at h
      rw [List.cons_append, findEnd_cons_other .read rfl rfl, ih d r e h, map_succ_add]
      simp
    | print =>
      simp only [cnt] at h
      rw [List.cons_append, findEnd_cons_other .print rfl rfl, ih d r e h, map_succ_add]
      simp

theorem findEnd_loop (b post : List Instruction) (hb : cnt b 0 = some 0) :
    findEnd (.startLoop :: (b ++ .endLoop :: post)) 0 = some (b.length + 1) := by
  rw [findEnd_cons_start, show (0 : Nat) + 1 = 0 + 1 from rfl,
    findEnd_pass b 0 (.endLoop :: post) 0 hb, findEnd_cons_end]
  norm_num

theorem outOf_stepMemRead (t : Interp IOSt) :
    outOf (stepMemRead ioHandler t) = outOf t := by
  simp [stepMemRead, ioHandler, outOf, List.filterMap_append]

theorem machine_incs : ∀ (q : Nat) (code pre post : List Instruction) (s : V1),
    code = pre ++ List.replicate q .increment ++ post → s.i = pre.length →
    s.mem.getD s.ptr 0 < 256 →
    ∃ s', stepN code q s = .ok s' ∧
      s'.i = pre.length + q ∧ s'.ptr = s.ptr ∧ s'.stack = s.stack ∧
      s'.inp = s.inp ∧ s'.out = s.out ∧
      (∀ j, s'.mem.getD j 0 =
        if j = s.ptr then (s.mem.getD s.ptr 0 + q) % 256 else s.mem.getD j 0) := by
  intro q
  induction q with
  | zero =>
    intro code pre post s hcode hi hv
    refine ⟨s, rfl, by omega, rfl, rfl, rfl, rfl, fun j => ?_⟩
    by_cases hj : j = s.ptr
    · subst hj
      rw [if_pos rfl, Nat.add_zero, Nat.mod_eq_of_lt hv]
    · rw [if_neg hj]
  | succ q ih =>
    intro code pre post s hcode hi hv
    have hc2 : code = pre ++ .increment :: (List.replicate q .increment ++ post) := by
      rw [hcode]
      simp [List.replicate_succ]
    have hget : code.get? s.i = some .increment := by
      rw [hc2, hi]
      exact get?_at_len pre .increment _
    have hstep : v1step code s = .ok
        { s with
          mem := cellWrite s.ptr (incByte (cellRead s.ptr s.mem).1 1) (cellRead s.ptr s.mem).2
          i := s.i + 1 } := by
      simp only [v1step, hget]
    set s1 : V1 :=
      { s with
        mem := cellWrite s.ptr (incByte (cellRead s.ptr s.mem).1 1) (cellRead s.ptr s.mem).2
        i := s.i + 1 } with hs1
    have hmem1 : ∀ j, s1.mem.getD j 0 =
        if j = s.ptr then (s.mem.getD s.ptr 0 + 1) % 256 else s.mem.getD j 0 := by
      intro j
      by_cases hj : j = s.ptr
      · subst hj
        rw [if_pos rfl]
        show (cellWrite s.ptr _ _).getD s.ptr 0 = _
        rw [cellWrite_getD_self, cellRead_fst]
        simp [incByte]
      · rw [if_neg hj]
        show (cellWrite s.ptr _ _).getD j 0 = _
        rw [cellWrite_getD_ne _ _ _ _ (fun he => hj he.symm), cellRead_snd_getD]
    have hcode' : code = (pre ++ [.increment]) ++ List.replicate q .increment ++ post := by
      rw [hc2]
      simp
    have hi1 : s1.i = (pre ++ [Instruction.increment]).length := by
      simp [hs1, hi]
    have hv1 : s1.mem.getD s1.ptr 0 < 256 := by
      show s1.mem.getD s.ptr 0 < 256
      rw [hmem1, if_pos rfl]
      exact Nat.mod_lt _ (by omega)
    obtain ⟨s', hrun, hi', hptr', hstk', hinp', hout', hmem'⟩ :=
      ih code (pre ++ [.increment]) post s1 hcode' hi1 hv1
    refine ⟨s', ?_, ?_, ?_, ?_, ?_, ?_, fun j => ?_⟩
    · simp only [stepN, hstep]
      exact hrun
    · simp only [List.length_append, List.length_singleton] at hi'
      omega
    · exact hptr'
    · exact hstk'
    · exact hinp'
    · exact hout'
    · rw [hmem' j]
      by_cases hj : j = s.ptr
      · subst hj
        rw [if_pos rfl, if_pos rfl, hmem1, if_pos rfl]
        omega
      · rw [if_neg hj, if_neg hj, hmem1, if_neg hj]

theorem machine_decs : ∀ (q : Nat) (code pre post : List Instruction) (s : V1),
    code = pre ++ List.replicate q .decrement ++ post → s.i = pre.length →
    s.mem.getD s.ptr 0 < 256 →
    ∃ s', stepN code q s = .ok s' ∧
      s'.i = pre.length + q ∧ s'.ptr = s.ptr ∧ s'.stack = s.stack ∧
      s'.inp = s.inp ∧ s'.out = s.out ∧
      (∀ j, s'.mem.getD j 0 =
        if j = s.ptr then (s.mem.getD s.ptr 0 + 255 * q) % 256
        else s.mem.getD j 0) := by
  intro q
  induction q with
  | zero =>
    intro code pre post s hcode hi hv
    refine ⟨s, rfl, by omega, rfl, rfl, rfl, rfl, fun j => ?_⟩
    by_cases hj : j = s.ptr
    · subst hj
      rw [if_pos rfl]
      rw [show s.mem.getD s.ptr 0 + 255 * 0 = s.mem.getD s.ptr 0 by omega,
        Nat.mod_eq_of_lt hv]
    · rw [if_neg hj]
  | succ q ih =>
    intro code pre post s hcode hi hv
    have hc2 : code = pre ++ .decrement :: (List.replicate q .decrement ++ post) := by
      rw [hcode]
      simp [List.replicate_succ]
    have hget : code.get? s.i = some .decrement := by
      rw [hc2, hi]
      exact get?_at_len pre .decrement _
    have hstep : v1step code s = .ok
        { s with
          mem := cellWrite s.ptr (decByte (cellRead s.ptr s.mem).1 1) (cellRead s.ptr s.mem).2
          i := s.i + 1 } := by
      simp only [v1step, hget]
    set s1 : V1 :=
      { s with
        mem := cellWrite s.ptr (decByte (cellRead s.ptr s.mem).1 1) (cellRead s.ptr s.mem).2
        i := s.i + 1 } with hs1
    have hmem1 : ∀ j, s1.mem.getD j 0 =
        if j = s.ptr then (s.mem.getD s.ptr 0 + 255) % 256 else s.mem.getD j 0 := by
      intro j
      by_cases hj : j = s.ptr
      · subst hj
        rw [if_pos rfl]
        show (cellWrite s.ptr _ _).getD s.ptr 0 = _
        rw [cellWrite_getD_self, cellRead_fst]
        simp [decByte]
      · rw [if_neg hj]
        show (cellWrite s.ptr _ _).getD j 0 = _
        rw [cellWrite_getD_ne _ _ _ _ (fun he => hj he.symm), cellRead_snd_getD]
    have hcode' : code = (pre ++ [.decrement]) ++ List.replicate q .decrement ++ post := by
      rw [hc2]
      simp
    have hi1 : s1.i = (pre ++ [Instruction.decrement]).length := by
      simp [hs1, hi]
    have hv1 : s1.mem.getD s1.ptr 0 < 256 := by
      show s1.mem.getD s.ptr 0 < 256
      rw [hmem1, if_pos rfl]
      exact Nat.mod_lt _ (by omega)
    obtain ⟨s', hrun, hi', hptr', hstk', hinp', hout', hmem'⟩ :=
      ih code (pre ++ [.decrement]) post s1 hcode' hi1 hv1
    refine ⟨s', ?_, ?_, ?_, ?_, ?_, ?_, fun j => ?_⟩
    · simp only [stepN, hstep]
      exact hrun
    · simp only [List.length_append, List.length_singleton] at hi'
      omega
    · exact hptr'
    · exact hstk'
    · exact hinp'
    · exact hout'
    · rw [hmem' j]
      by_cases hj : j = s.ptr
      · subst hj
        rw [if_pos rfl, if_pos rfl, hmem1, if_pos rfl]
        omega
      · rw [if_neg hj, if_neg hj, hmem1, if_neg hj]

theorem machine_shrs : ∀ (q : Nat) (code pre post : List Instruction) (s : V1),
    code = pre ++ List.replicate q .shiftRight ++ post → s.i = pre.length →
    ∃ s', stepN code q s = .ok s' ∧
      s'.i = pre.length + q ∧ s'.ptr = s.ptr + q ∧ s'.stack = s.stack ∧
      s'.inp = s.inp ∧ s'.out = s.out ∧ s'.mem = s.mem := by
  intro q
  induction q with
  | zero =>
    intro code pre post s hcode hi
    exact ⟨s, rfl, by omega, by omega, rfl, rfl, rfl, rfl⟩
  | succ q ih =>
    intro code pre post s hcode hi
    have hc2 : code = pre ++ .shiftRight :: (List.replicate q .shiftRight ++ post) := by
      rw [hcode]
      simp [List.replicate_succ]
    have hget : code.get? s.i = some .shiftRight := by
      rw [hc2, hi]
      exact get?_at_len pre .shiftRight _
    have hstep : v1step code s = .ok { s with ptr := s.ptr + 1, i := s.i + 1 } := by
      simp only [v1step, hget]
    obtain ⟨s', hrun, hi', hptr', hstk', hinp', hout', hmem'⟩ :=
      ih code (pre ++ [.shiftRight]) post { s with ptr := s.ptr + 1, i := s.i + 1 }
        (by rw [hc2]; simp) (by simp [hi])
    refine ⟨s', ?_, ?_, ?_, hstk', hinp', hout', hmem'⟩
    · simp only [stepN, hstep]
      exact hrun
    · simp only [List.length_append, List.length_singleton] at hi'
      omega
    · simp only at hptr'
      omega

theorem machine_shls : ∀ (q : Nat) (code pre post : List Instruction) (s : V1),
    code = pre ++ List.replicate q .shiftLeft ++ post → s.i = pre.length →
    q ≤ s.ptr →
    ∃ s', stepN code q s = .ok s' ∧
      s'.i = pre.length + q ∧ s'.ptr = s.ptr - q ∧ s'.stack = s.stack ∧
      s'.inp = s.inp ∧ s'.out = s.out ∧ s'.mem = s.mem := by
  intro q
  induction q with
  | zero =>
    intro code pre post s hcode hi _
    exact ⟨s, rfl, by omega, by omega, rfl, rfl, rfl, rfl⟩
  | succ q ih =>
    intro code pre post s hcode hi hq
    have hc2 : code = pre ++ .shiftLeft :: (List.replicate q .shiftLeft ++ post) := by
      rw [hcode]
      simp [List.replicate_succ]
    have hget : code.get? s.i = some .shiftLeft := by
      rw [hc2, hi]
      exact get?_at_len pre .shiftLeft _
    have hstep : v1step code s = .ok { s with ptr := s.ptr - 1, i := s.i + 1 } := by
      simp only [v1step, hget]
      rw [if_neg (by omega)]
    obtain ⟨s', hrun, hi', hptr', hstk', hinp', hout', hmem'⟩ :=
      ih code (pre ++ [.shiftLeft]) post { s with ptr := s.ptr - 1, i := s.i + 1 }
        (by rw [hc2]; simp) (by simp [hi]) (by simp; omega)
    refine ⟨s', ?_, ?_, ?_, hstk', hinp', hout', hmem'⟩
    · simp only [stepN, hstep]
      exact hrun
    · simp only [List.length_append, List.length_singleton] at hi'
      omega
    · simp only at hptr'
      omega

/-! ## Simulation of the tree interpreter by the v1 machine (C10) -/

theorem machine_sim_seq (f : Nat)
    (hrun : ∀ (e : Expr), srcFaithful e = true →
      ∀ (t t' : Interp IOSt), run ioHandler f e t = .ok t' →
      ∀ (code pre post : List Instruction) (s : V1),
        code = pre ++ flatten e ++ post → s.i = pre.length → Rel t s →
        ∃ k s', stepN code k s = .ok s' ∧
          s'.i = pre.length + (flatten e).length ∧
          s'.stack = s.stack ∧ Rel t' s') :
    ∀ (l : List Expr), srcFaithful.goL l = true →
      ∀ (t t' : Interp IOSt), seqRun (run ioHandler f) l t = .ok t' →
      ∀ (code pre post : List Instruction) (s : V1),
        code = pre ++ flatten.goL l ++ post → s.i = pre.length → Rel t s →
        ∃ k s', stepN code k s = .ok s' ∧
          s'.i = pre.length + (flatten.goL l).length ∧
          s'.stack = s.stack ∧ Rel t' s' := by
  intro l
  induction l with
  | nil =>
    intro _ t t' h code pre post s hcode hi hrel
    simp only [seqRun] at h
    cases h
    exact ⟨0, s, rfl, by simp [flatten.goL, hi], rfl, hrel⟩
  | cons e r ihl =>
    intro hsf t t' h code pre post s hcode hi hrel
    simp only [srcFaithful.goL, Bool.and_eq_true] at hsf
    simp only [seqRun] at h
    cases hre : run ioHandler f e t with
    | ok t1 =>
      rw [hre] at h
      obtain ⟨k1, s1, hk1, hi1, hstk1, hrel1⟩ := hrun e hsf.1 t t1 hre code pre
        (flatten.goL r ++ post) s
        (by rw [hcode]; simp [flatten.goL]) hi hrel
      obtain ⟨k2, s2, hk2, hi2, hstk2, hrel2⟩ := ihl hsf.2 t1 t' h code
        (pre ++ flatten e) post s1
        (by rw [hcode]; simp [flatten.goL]) (by simp [hi1]) hrel1
      refine ⟨k1 + k2, s2, ?_, ?_, ?_, hrel2⟩
      · rw [stepN_add code k1 k2 s s1 hk1]
        exact hk2
      · simp only [List.length_append] at hi2
        simp only [flatten.goL, List.length_append]
        omega
      · rw [hstk2, hstk1]
    | panicked => rw [hre] at h; cases h
    | nofuel => rw [hre] at h; cases h

theorem machine_sim_loopGo (f : Nat) (b : Expr)
    (hb : ∀ (t t' : Interp IOSt), run ioHandler f b t = .ok t' →
      ∀ (code pre post : List Instruction) (s : V1),
        code = pre ++ flatten b ++ post → s.i = pre.length → Rel t s →
        ∃ k s', stepN code k s = .ok s' ∧
          s'.i = pre.length + (flatten b).length ∧
          s'.stack = s.stack ∧ Rel t' s') :
    ∀ (g : Nat) (t t' : Interp IOSt),
      loopWhile (run ioHandler f b) g t = .ok t' →
      ∀ (code pre post : List Instruction) (s : V1) (stack0 : List Nat),
        code = pre ++ (.startLoop :: (flatten b ++ [.endLoop])) ++ post →
        s.i = pre.length + 1 + (flatten b).length →
        s.stack = pre.length :: stack0 →
        Rel t s →
        ∃ k s', stepN code k s = .ok s' ∧
          s'.i = pre.length + ((flatten b).length + 2) ∧
          s'.stack = stack0 ∧ Rel t' s' := by
  intro g
  induction g with
  | zero =>
    intro t t' h code pre post s stack0 hcode hi hstk hrel
    obtain ⟨hcell, hbound, hptr, hinp, hinpb, hout⟩ := hrel
    simp only [loopWhile] at h
    split at h
    case isTrue hv =>
      cases h
      have hveq : s.mem.getD s.ptr 0 = 0 := by
        rw [← hcell s.ptr, ← hptr]
        rw [cellRead_fst] at hv
        exact hv
      have hget : code.get? s.i = some .endLoop := by
        rw [show s.i = (pre ++ .startLoop :: flatten b).length by simp [hi]; omega]
        rw [hcode, show pre ++ (Instruction.startLoop :: (flatten b ++ [.endLoop])) ++ post =
          (pre ++ .startLoop :: flatten b) ++ .endLoop :: post by simp]
        exact get?_at_len _ _ _
      refine ⟨1, { s with
        mem := (cellRead s.ptr s.mem).2
        stack := stack0
        i := s.i + 1 }, ?_, ?_, ?_, ?_⟩
      · show (match v1step code s with
          | .ok s1 => stepN code 0 s1
          | .fault => .fault) = _
        simp only [v1step, hget]
        rw [if_neg (by rw [cellRead_fst]; omega), hstk]
        rfl
      · simp only [hi]
        omega
      · simp [hstk]
      · refine ⟨?_, ?_, ?_, ?_, ?_, ?_⟩
        · intro j
          show (cellRead t.current_cell_index t.cells).2.getD j 0 =
            (cellRead s.ptr s.mem).2.getD j 0
          rw [cellRead_snd_getD, cellRead_snd_getD]
          exact hcell j
        · intro j
          show (cellRead t.current_cell_index t.cells).2.getD j 0 < 256
          rw [cellRead_snd_getD]
          exact hbound j
        · exact hptr
        · exact hinp
        · exact hinpb
        · exact hout
    case isFalse hv => cases h
  | succ g ih =>
    intro t t' h code pre post s stack0 hcode hi hstk hrel
    obtain ⟨hcell, hbound, hptr, hinp, hinpb, hout⟩ := hrel
    simp only [loopWhile] at h
    have hget : code.get? s.i = some .endLoop := by
      rw [show s.i = (pre ++ .startLoop :: flatten b).length by simp [hi]; omega]
      rw [hcode, show pre ++ (Instruction.startLoop :: (flatten b ++ [.endLoop])) ++ post =
        (pre ++ .startLoop :: flatten b) ++ .endLoop :: post by simp]
      exact get?_at_len _ _ _
    split at h
    case isTrue hv =>
      cases h
      have hveq : s.mem.getD s.ptr 0 = 0 := by
        rw [← hcell s.ptr, ← hptr]
        rw [cellRead_fst] at hv
        exact hv
      refine ⟨1, { s with
        mem := (cellRead s.ptr s.mem).2
        stack := stack0
        i := s.i + 1 }, ?_, ?_, ?_, ?_⟩
      · show (match v1step code s with
          | .ok s1 => stepN code 0 s1
          | .fault => .fault) = _
        simp only [v1step, hget]
        rw [if_neg (by rw [cellRead_fst]; omega), hstk]
        rfl
      · simp only [hi]
        omega
      · simp [hstk]
      · refine ⟨?_, ?_, ?_, ?_, ?_, ?_⟩
        · intro j
          show (cellRead t.current_cell_index t.cells).2.getD j 0 =
            (cellRead s.ptr s.mem).2.getD j 0
          rw [cellRead_snd_getD, cellRead_snd_getD]
          exact hcell j
        · intro j
          show (cellRead t.current_cell_index t.cells).2.getD j 0 < 256
          rw [cellRead_snd_getD]
          exact hbound j
        · exact hptr
        · exact hinp
        · exact hinpb
        · exact hout
    case isFalse hv =>
      have hvne : s.mem.getD s.ptr 0 ≠ 0 := by
        rw [← hcell s.ptr, ← hptr]
        rw [cellRead_fst] at hv
        exact hv
      cases hb2 : run ioHandler f b
          { t with cells := (cellRead t.current_cell_index t.cells).2 } with
      | ok t2 =>
        rw [hb2] at h
        have hstep1 : v1step code s = .ok
            { s with mem := (cellRead s.ptr s.mem).2, i := pre.length + 1 } := by
          simp only [v1step, hget]
          rw [if_pos (by rw [cellRead_fst]; exact hvne), hstk]
        have hrel1 : Rel { t with cells := (cellRead t.current_cell_index t.cells).2 }
            { s with mem := (cellRead s.ptr s.mem).2, i := pre.length + 1 } := by
          refine ⟨?_, ?_, hptr, hinp, hinpb, hout⟩
          · intro j
            show (cellRead t.current_cell_index t.cells).2.getD j 0 =
              (cellRead s.ptr s.mem).2.getD j 0
            rw [cellRead_snd_getD, cellRead_snd_getD]
            exact hcell j
          · intro j
            show (cellRead t.current_cell_index t.cells).2.getD j 0 < 256
            rw [cellRead_snd_getD]
            exact hbound j
        obtain ⟨k2, s2, hk2, hi2, hstk2, hrel2⟩ := hb _ t2 hb2 code
          (pre ++ [.startLoop]) (.endLoop :: post)
          { s with mem := (cellRead s.ptr s.mem).2, i := pre.length + 1 }
          (by rw [hcode]; simp) (by simp) hrel1
        obtain ⟨k3, s3, hk3, hi3, hstk3, hrel3⟩ := ih t2 t' h code pre post s2 stack0
          hcode (by simp only [List.length_append, List.length_singleton] at hi2; omega)
          (by rw [hstk2]; simp [hstk]) hrel2
        refine ⟨1 + k2 + k3, s3, ?_, hi3, hstk3, hrel3⟩
        rw [show (1 : Nat) + k2 + k3 = 1 + (k2 + k3) by omega]
        rw [stepN_add code 1 (k2 + k3) s _ (by simp only [stepN, hstep1]; rfl)]
        rw [stepN_add code k2 k3 _ s2 hk2]
        exact hk3
      | panicked => rw [hb2] at h; cases h
      | nofuel => rw [hb2] at h; cases h

mutual

theorem flatten_cnt : (e : Expr) → ∀ d, cnt (flatten e) d = some d
  | .block l => fun d => flatten_cnt_list l d
  | .increment n => fun d => replicate_nobracket n .increment (by simp) (by simp) d
  | .decrement n => fun d => replicate_nobracket n .decrement (by simp) (by simp) d
  | .shiftLeft n => fun d => replicate_nobracket n .shiftLeft (by simp) (by simp) d
  | .shiftRight n => fun d => replicate_nobracket n .shiftRight (by simp) (by simp) d
  | .printChar => fun d => rfl
  | .readChar => fun d => rfl
  | .loop b => fun d => by
    show cnt (.startLoop :: (flatten b ++ [.endLoop])) d = some d
    simp only [cnt]
    rw [cnt_append, flatten_cnt b (d + 1)]
    simp [cnt]
  | .assign _ _ => fun d => rfl
  | .assignCurrent _ => fun d => rfl
  | .printString _ => fun d => rfl
  | .setCellPointer _ => fun d => rfl
  | .readCharForget => fun d => rfl

theorem flatten_cnt_list : (l : List Expr) → ∀ d, cnt (flatten.goL l) d = some d
  | [] => fun d => rfl
  | e :: r => fun d => by
    show cnt (flatten e ++ flatten.goL r) d = some d
    rw [cnt_append, flatten_cnt e d]
    simp only [Option.some_bind]
    exact flatten_cnt_list r d

end

theorem machine_sim : ∀ (f : Nat) (e : Expr), srcFaithful e = true →
    ∀ (t t' : Interp IOSt), run ioHandler f e t = .ok t' →
    ∀ (code pre post : List Instruction) (s : V1),
      code = pre ++ flatten e ++ post → s.i = pre.length → Rel t s →
      ∃ k s', stepN code k s = .ok s' ∧
        s'.i = pre.length + (flatten e).length ∧
        s'.stack = s.stack ∧ Rel t' s' := by
  intro f
  induction f with
  | zero =>
    intro e _ t t' hr
    simp [run] at hr
  | succ f ih =>
    intro e hsf t t' hr code pre post s hcode hi hrel
    obtain ⟨hcell, hbound, hptr, hinp, hinpb, hout⟩ := hrel
    cases e with
    | block l =>
      simp only [run] at hr
      exact machine_sim_seq f ih l (by simpa [srcFaithful] using hsf) t t' hr
        code pre post s hcode hi ⟨hcell, hbound, hptr, hinp, hinpb, hout⟩
    | increment n =>
      simp only [run] at hr
      cases hr
      have hb' : s.mem.getD s.ptr 0 < 256 := by
        rw [← hcell s.ptr]
        exact hbound s.ptr
      obtain ⟨s', hk, hi', hptr', hstk', hinp', hout', hmem'⟩ :=
        machine_incs n code pre post s hcode hi hb'
      refine ⟨n, s', hk, ?_, hstk', ?_, ?_, ?_, ?_, ?_, ?_⟩
      · rw [hi']
        simp [flatten]
      · intro j
        show (cellWrite t.current_cell_index
          (incByte (cellRead t.current_cell_index t.cells).1 n)
          (cellRead t.current_cell_index t.cells).2).getD j 0 = _
        rw [hmem' j]
        by_cases hj : j = s.ptr
        · rw [if_pos hj, hj, ← hptr, cellWrite_getD_self, cellRead_fst, hptr,
            hcell s.ptr]
          simp only [incByte]
          omega
        · have hj2 : t.current_cell_index ≠ j := by
            rw [hptr]
            exact fun he => hj he.symm
          rw [if_neg hj, cellWrite_getD_ne _ _ _ _ hj2, cellRead_snd_getD]
          exact hcell j
      · intro j
        show (cellWrite t.current_cell_index
          (incByte (cellRead t.current_cell_index t.cells).1 n)
          (cellRead t.current_cell_index t.cells).2).getD j 0 < 256
        by_cases hj : t.current_cell_index = j
        · rw [← hj, cellWrite_getD_self]
          exact Nat.mod_lt _ (by omega)
        · rw [cellWrite_getD_ne _ _ _ _ hj, cellRead_snd_getD]
          exact hbound j
      · show t.current_cell_index = s'.ptr
        rw [hptr', hptr]
      · show t.handler.inp = s'.inp
        rw [hinp', hinp]
      · rw [hinp']
        exact hinpb
      · show outOf t = s'.out
        rw [hout', hout]
    | decrement n =>
      simp only [run] at hr
      cases hr
      have hb' : s.mem.getD s.ptr 0 < 256 := by
        rw [← hcell s.ptr]
        exact hbound s.ptr
      obtain ⟨s', hk, hi', hptr', hstk', hinp', hout', hmem'⟩ :=
        machine_decs n code pre post s hcode hi hb'
      refine ⟨n, s', hk, ?_, hstk', ?_, ?_, ?_, ?_, ?_, ?_⟩
      · rw [hi']
        simp [flatten]
      · intro j
        show (cellWrite t.current_cell_index
          (decByte (cellRead t.current_cell_index t.cells).1 n)
          (cellRead t.current_cell_index t.cells).2).getD j 0 = _
        rw [hmem' j]
        by_cases hj : j = s.ptr
        · rw [if_pos hj, hj, ← hptr, cellWrite_getD_self, cellRead_fst, hptr,
            hcell s.ptr]
          simp only [decByte]
          omega
        · have hj2 : t.current_cell_index ≠ j := by
            rw [hptr]
            exact fun he => hj he.symm
          rw [if_neg hj, cellWrite_getD_ne _ _ _ _ hj2, cellRead_snd_getD]
          exact hcell j
      · intro j
        show (cellWrite t.current_cell_index
          (decByte (cellRead t.current_cell_index t.cells).1 n)
          (cellRead t.current_cell_index t.cells).2).getD j 0 < 256
        by_cases hj : t.current_cell_index = j
        · rw [← hj, cellWrite_getD_self]
          exact Nat.mod_lt _ (by omega)
        · rw [cellWrite_getD_ne _ _ _ _ hj, cellRead_snd_getD]
          exact hbound j
      · show t.current_cell_index = s'.ptr
        rw [hptr', hptr]
      · show t.handler.inp = s'.inp
        rw [hinp', hinp]
      · rw [hinp']
        exact hinpb
      · show outOf t = s'.out
        rw [hout', hout]
    | shiftRight n =>
      simp only [run] at hr
      cases hr
      obtain ⟨s', hk, hi', hptr', hstk', hinp', hout', hmem'⟩ :=
        machine_shrs n code pre post s hcode hi
      refine ⟨n, s', hk, ?_, hstk', ?_, ?_, ?_, ?_, ?_, ?_⟩
      · rw [hi']
        simp [flatten]
      · intro j
        show t.cells.getD j 0 = _
        rw [hmem']
        exact hcell j
      · exact hbound
      · show t.current_cell_index + n = s'.ptr
        rw [hptr', hptr]
      · show t.handler.inp = s'.inp
        rw [hinp', hinp]
      · rw [hinp']
        exact hinpb
      · show outOf t = s'.out
        rw [hout', hout]
    | shiftLeft n =>
      simp only [run] at hr
      split at hr
      case isTrue hn =>
        cases hr
        obtain ⟨s', hk, hi', hptr', hstk', hinp', hout', hmem'⟩ :=
          machine_shls n code pre post s hcode hi (by rw [← hptr]; exact hn)
        refine ⟨n, s', hk, ?_, hstk', ?_, ?_, ?_, ?_, ?_, ?_⟩
        · rw [hi']
          simp [flatten]
        · intro j
          show t.cells.getD j 0 = _
          rw [hmem']
          exact hcell j
        · exact hbound
        · show t.current_cell_index - n = s'.ptr
          rw [hptr', hptr]
        · show t.handler.inp = s'.inp
          rw [hinp', hinp]
        · rw [hinp']
          exact hinpb
        · show outOf t = s'.out
          rw [hout', hout]
      case isFalse hn => cases hr
    | printChar =>
      simp only [run] at hr
      cases hr
      have hget : code.get? s.i = some .print := by
        rw [hi, hcode, show pre ++ flatten .printChar ++ post =
          pre ++ .print :: post by simp [flatten]]
        exact get?_at_len _ _ _
      refine ⟨1, { s with
        mem := (cellRead s.ptr s.mem).2
        out := s.out ++ [(cellRead s.ptr s.mem).1]
        i := s.i + 1 }, ?_, ?_, ?_, ?_, ?_, ?_, ?_, ?_, ?_⟩
      · show (match v1step code s with
          | .ok s1 => stepN code 0 s1
          | .fault => .fault) = _
        simp only [v1step, hget]
        rfl
      · simp [hi, flatten]
      · rfl
      · intro j
        show (cellRead (stepMemRead ioHandler t).current_cell_index
          (stepMemRead ioHandler t).cells).2.getD j 0 = _
        rw [cellRead_snd_getD]
        show t.cells.getD j 0 = (cellRead s.ptr s.mem).2.getD j 0
        rw [cellRead_snd_getD]
        exact hcell j
      · intro j
        show (cellRead (stepMemRead ioHandler t).current_cell_index
          (stepMemRead ioHandler t).cells).2.getD j 0 < 256
        rw [cellRead_snd_getD]
        exact hbound j
      · exact hptr
      · exact hinp
      · exact hinpb
      · show outOf (stepPrintChar ioHandler t) = _
        have hv : (cellRead (stepMemRead ioHandler t).current_cell_index
            (stepMemRead ioHandler t).cells).1 = (cellRead s.ptr s.mem).1 := by
          rw [cellRead_fst, cellRead_fst]
          show t.cells.getD t.current_cell_index 0 = s.mem.getD s.ptr 0
          rw [hptr]
          exact hcell s.ptr
        have h2 : outOf (stepPrintChar ioHandler t) =
            outOf t ++ [(cellRead (stepMemRead ioHandler t).current_cell_index
              (stepMemRead ioHandler t).cells).1] := by
          simp [stepPrintChar, stepMemRead, ioHandler, outOf, List.filterMap_append]
        rw [h2, hv, hout]
    | readChar =>
      simp only [run] at hr
      cases hr
      have hget : code.get? s.i = some .read := by
        rw [hi, hcode, show pre ++ flatten .readChar ++ post =
          pre ++ .read :: post by simp [flatten]]
        exact get?_at_len _ _ _
      refine ⟨1, { s with
        mem := cellWrite s.ptr (s.inp.headD 0) s.mem
        inp := s.inp.tail
        i := s.i + 1 }, ?_, ?_, ?_, ?_, ?_, ?_, ?_, ?_, ?_⟩
      · show (match v1step code s with
          | .ok s1 => stepN code 0 s1
          | .fault => .fault) = _
        simp only [v1step, hget]
        rfl
      · simp [hi, flatten]
      · rfl
      · intro j
        show (cellWrite t.current_cell_index (ioHandler.read_char t.handler).1
          t.cells).getD j 0 = (cellWrite s.ptr (s.inp.headD 0) s.mem).getD j 0
        have hb2 : (ioHandler.read_char t.handler).1 = s.inp.headD 0 := by
          simp [ioHandler, hinp]
        by_cases hj : j = s.ptr
        · rw [hj, ← hptr, cellWrite_getD_self, hptr, cellWrite_getD_self, hb2]
        · have hj2 : t.current_cell_index ≠ j := by
            rw [hptr]
            exact fun he => hj he.symm
          rw [cellWrite_getD_ne _ _ _ _ hj2,
            cellWrite_getD_ne _ _ _ _ (fun he => hj he.symm)]
          exact hcell j
      · intro j
        show (cellWrite t.current_cell_index (ioHandler.read_char t.handler).1
          t.cells).getD j 0 < 256
        have hb2 : (ioHandler.read_char t.handler).1 = s.inp.headD 0 := by
          simp [ioHandler, hinp]
        by_cases hj : t.current_cell_index = j
        · rw [← hj, cellWrite_getD_self, hb2]
          cases hin : s.inp with
          | nil => simp
          | cons a r =>
            simp only [List.headD_cons]
            exact hinpb a (by rw [hin]; simp)
        · rw [cellWrite_getD_ne _ _ _ _ hj]
          exact hbound j
      · exact hptr
      · show (ioHandler.read_char t.handler).2.inp = s.inp.tail
        simp [ioHandler, hinp]
      · intro b hb2
        exact hinpb b (List.mem_of_mem_tail hb2)
      · show outOf (stepReadChar ioHandler t) = _
        simp only [stepReadChar, ioHandler, outOf]
        rw [List.filterMap_append]
        simp only [List.filterMap]
        show outOf t ++ [] = s.out
        rw [hout]
        simp
    | loop b =>
      have hsb : srcFaithful b = true := by simpa [srcFaithful] using hsf
      simp only [run] at hr
      have hget : code.get? s.i = some .startLoop := by
        rw [hi, hcode, show pre ++ flatten (Expr.loop b) ++ post =
          pre ++ .startLoop :: ((flatten b ++ [.endLoop]) ++ post) by simp [flatten]]
        exact get?_at_len _ _ _
      have hdrop : code.drop s.i = .startLoop :: (flatten b ++ .endLoop :: post) := by
        rw [hi, hcode, show pre ++ flatten (Expr.loop b) ++ post =
          pre ++ (.startLoop :: (flatten b ++ .endLoop :: post)) by simp [flatten]]
        exact List.drop_left _ _
      have hlen2 : (flatten (Expr.loop b)).length = (flatten b).length + 2 := by
        simp [flatten]
      have hcellv : (cellRead (stepMemRead ioHandler t).current_cell_index
          (stepMemRead ioHandler t).cells).1 = s.mem.getD s.ptr 0 := by
        rw [cellRead_fst]
        show t.cells.getD t.current_cell_index 0 = s.mem.getD s.ptr 0
        rw [hptr]
        exact hcell s.ptr
      have hfind : findEnd (code.drop s.i) 0 = some ((flatten b).length + 1) := by
        rw [hdrop]
        exact findEnd_loop _ _ (flatten_cnt b 0)
      have hskip : ∀ t1, t1 = { stepMemRead ioHandler t with
            cells := (cellRead (stepMemRead ioHandler t).current_cell_index
              (stepMemRead ioHandler t).cells).2 } →
          s.mem.getD s.ptr 0 = 0 →
          ∃ k s', stepN code k s = .ok s' ∧
            s'.i = pre.length + (flatten (Expr.loop b)).length ∧
            s'.stack = s.stack ∧ Rel t1 s' := by
        intro t1 ht1 hv0
        refine ⟨1, { s with
          mem := (cellRead s.ptr s.mem).2
          i := s.i + ((flatten b).length + 1) + 1 }, ?_, ?_, rfl, ?_⟩
        · show (match v1step code s with
            | .ok s1 => stepN code 0 s1
            | .fault => .fault) = _
          simp only [v1step, hget]
          rw [if_pos (by rw [cellRead_fst]; exact hv0), hfind]
          rfl
        · simp only [hi, hlen2]
          omega
        · subst ht1
          refine ⟨?_, ?_, hptr, hinp, hinpb, ?_⟩
          · intro j
            show (cellRead (stepMemRead ioHandler t).current_cell_index
              (stepMemRead ioHandler t).cells).2.getD j 0 = _
            rw [cellRead_snd_getD]
            show t.cells.getD j 0 = (cellRead s.ptr s.mem).2.getD j 0
            rw [cellRead_snd_getD]
            exact hcell j
          · intro j
            show (cellRead (stepMemRead ioHandler t).current_cell_index
              (stepMemRead ioHandler t).cells).2.getD j 0 < 256
            rw [cellRead_snd_getD]
            exact hbound j
          · show outOf { stepMemRead ioHandler t with
              cells := (cellRead (stepMemRead ioHandler t).current_cell_index
                (stepMemRead ioHandler t).cells).2 } = _
            rw [show outOf { stepMemRead ioHandler t with
              cells := (cellRead (stepMemRead ioHandler t).current_cell_index
                (stepMemRead ioHandler t).cells).2 } = outOf (stepMemRead ioHandler t)
              from rfl, outOf_stepMemRead, hout]
      cases f with
      | zero =>
        simp only [loopWhile] at hr
        split at hr
        case isTrue hv =>
          cases hr
          exact hskip _ rfl (by rw [← hcellv]; exact hv)
        case isFalse hv => cases hr
      | succ g =>
        simp only [loopWhile] at hr
        split at hr
        case isTrue hv =>
          cases hr
          exact hskip _ rfl (by rw [← hcellv]; exact hv)
        case isFalse hv =>
          have hvne : s.mem.getD s.ptr 0 ≠ 0 := by
            rw [← hcellv]
            exact hv
          cases hb2 : run ioHandler (g + 1) b
              { stepMemRead ioHandler t with
                cells := (cellRead (stepMemRead ioHandler t).current_cell_index
                  (stepMemRead ioHandler t).cells).2 } with
          | ok t2 =>
            rw [hb2] at hr
            have hstep1 : v1step code s = .ok { s with
                mem := (cellRead s.ptr s.mem).2
                stack := s.i :: s.stack
                i := s.i + 1 } := by
              simp only [v1step, hget]
              rw [if_neg (by rw [cellRead_fst]; exact hvne)]
            have hrel1 : Rel { stepMemRead ioHandler t with
                cells := (cellRead (stepMemRead ioHandler t).current_cell_index
                  (stepMemRead ioHandler t).cells).2 }
                { s with
                  mem := (cellRead s.ptr s.mem).2
                  stack := s.i :: s.stack
                  i := s.i + 1 } := by
              refine ⟨?_, ?_, hptr, ?_, hinpb, ?_⟩
              · intro j
                show (cellRead (stepMemRead ioHandler t).current_cell_index
                  (stepMemRead ioHandler t).cells).2.getD j 0 =
                  (cellRead s.ptr s.mem).2.getD j 0
                rw [cellRead_snd_getD, cellRead_snd_getD]
                exact hcell j
              · intro j
                show (cellRead (stepMemRead ioHandler t).current_cell_index
                  (stepMemRead ioHandler t).cells).2.getD j 0 < 256
                rw [cellRead_snd_getD]
                exact hbound j
              · show (ioHandler.mem_read t.current_cell_index t.handler).inp = s.inp
                simp [ioHandler, hinp]
              · show outOf { stepMemRead ioHandler t with
                  cells := (cellRead (stepMemRead ioHandler t).current_cell_index
                    (stepMemRead ioHandler t).cells).2 } = s.out
                rw [show outOf { stepMemRead ioHandler t with
                  cells := (cellRead (stepMemRead ioHandler t).current_cell_index
                    (stepMemRead ioHandler t).cells).2 } = outOf (stepMemRead ioHandler t)
                  from rfl, outOf_stepMemRead, hout]
            obtain ⟨k2, s2, hk2, hi2, hstk2, hrel2⟩ :=
              ih b hsb _ t2 hb2 code (pre ++ [.startLoop]) (.endLoop :: post)
                { s with
                  mem := (cellRead s.ptr s.mem).2
                  stack := s.i :: s.stack
                  i := s.i + 1 }
                (by rw [hcode]; simp [flatten]) (by simp [hi]) hrel1
            have hstk2' : s2.stack = pre.length :: s.stack := by
              rw [hstk2]
              show s.i :: s.stack = _
              rw [hi]
            have hi2' : s2.i = pre.length + 1 + (flatten b).length := by
              rw [hi2]
              simp
            obtain ⟨k3, s3, hk3, hi3, hstk3, hrel3⟩ :=
              machine_sim_loopGo (g + 1) b (ih b hsb) g t2 t' hr
                code pre post s2 s.stack
                (by rw [hcode, show flatten (Expr.loop b) =
                  .startLoop :: (flatten b ++ [.endLoop]) from rfl])
                hi2' hstk2' hrel2
            refine ⟨k2 + k3 + 1, s3, ?_, ?_, hstk3, hrel3⟩
            · show (match v1step code s with
                | .ok s1 => stepN code (k2 + k3) s1
                | .fault => .fault) = _
              rw [hstep1]
              show stepN code (k2 + k3) { s with
                mem := (cellRead s.ptr s.mem).2
                stack := s.i :: s.stack
                i := s.i + 1 } = _
              rw [stepN_add code k2 k3 _ s2 hk2]
              exact hk3
            · rw [hi3, hlen2]
          | panicked =>
            rw [hb2] at hr
            cases hr
          | nofuel =>
            rw [hb2] at hr
            cases hr
    | assign i v => simp [srcFaithful] at hsf
    | assignCurrent v => simp [srcFaithful] at hsf
    | printString v => simp [srcFaithful] at hsf
    | setCellPointer v => simp [srcFaithful] at hsf
    | readCharForget => simp [srcFaithful] at hsf

theorem stepN_exec (code : List Instruction) :
    ∀ (k : Nat) (s s' : V1), stepN code k s = .ok s' → code.length ≤ s'.i →
      ∃ g, v1exec code g s = some (.ok s') := by
  intro k
  induction k with
  | zero =>
    intro s s' h hge
    simp only [stepN] at h
    cases h
    exact ⟨0, by simp [v1exec, Nat.not_lt.mpr hge]⟩
  | succ k ih =>
    intro s s' h hge
    simp only [stepN] at h
    cases hv : v1step code s with
    | fault =>
      rw [hv] at h
      cases h
    | ok s1 =>
      rw [hv] at h
      obtain ⟨g, hg⟩ := ih s1 s' h hge
      by_cases hlt : s.i < code.length
      · refine ⟨g + 1, ?_⟩
        simp only [v1exec, if_pos hlt, hv]
        exact hg
      · have hnone : code.get? s.i = none := by
          rw [List.get?_eq_none]
          omega
        have hfix : v1step code s = .ok s := by
          simp only [v1step]
          rw [hnone]
        rw [hfix] at hv
        cases hv
        exact ⟨g, hg⟩

/-- C10: on a source of the eight command characters with balanced
brackets, whose tree-interpreter run completes normally (as it does
whenever the pointer never moves below zero: pointer underflow is the
only fault), the legacy v1 machine on the filter-mapped instruction
list terminates with the same output byte sequence that the front end
plus Interpreter::run produce. -/
theorem C10_v1_equiv (src : List Char) (inp : List Nat) (f : Nat)
    (t' : Interp IOSt)
    (hcmd : ∀ c ∈ src, is_bf_char c = true)
    (hbal : balancedSrc src)
    (hinp : ∀ b ∈ inp, b < 256)
    (hrun : run ioHandler f (parsedIR src) (initInterp inp) = .ok t') :
    ∃ g s', v1exec (src.filterMap Instruction.from_char) g (v1init inp) =
        some (.ok s') ∧ s'.out = outOf t' := by
  obtain ⟨hsf, hfl⟩ := parsedIR_flat src hbal
  have hrel : Rel (initInterp inp) (v1init inp) := by
    refine ⟨?_, ?_, rfl, rfl, hinp, rfl⟩
    · intro j
      rfl
    · intro j
      show (0 : Nat) < 256
      omega
  obtain ⟨k, s', hk, hi', hstk', hrel'⟩ :=
    machine_sim f (parsedIR src) hsf (initInterp inp) t' hrun
      (src.filterMap Instruction.from_char) [] [] (v1init inp)
      (by rw [hfl]; simp) rfl hrel
  have hge : (src.filterMap Instruction.from_char).length ≤ s'.i := by
    rw [hi', hfl]
    simp
  obtain ⟨g, hg⟩ := stepN_exec _ k _ s' hk hge
  obtain ⟨_, _, _, _, _, hout⟩ := hrel'
  exact ⟨g, s', hg, hout.symm⟩

/-- C10 witness: the source "+[-]." with empty input.  The v1 machine
and the tree pipeline both print the single byte 0. -/
theorem C10_witness :
    (∀ c ∈ ['+', '[', '-', ']', '.'], is_bf_char c = true) ∧
    balancedSrc ['+', '[', '-', ']', '.'] ∧
    ∃ g s', v1exec (['+', '[', '-', ']', '.'].filterMap Instruction.from_char) g
        (v1init []) = some (.ok s') ∧ s'.out = [0] := by
  refine ⟨by decide, by decide, ?_⟩
  obtain ⟨g, s', hg, hout⟩ :=
    C10_v1_equiv ['+', '[', '-', ']', '.'] [] 10
      { cells := [0]
        current_cell_index := 0
        handler := { inp := [], events := [.memRead 0, .memRead 0, .write 0] } }
      (by decide) (by decide) (by simp) (by decide)
  refine ⟨g, s', hg, ?_⟩
  rw [hout]
  decide

end BfRs
